import Mathlib

/-!
Verification of the `miyataka/regex_engine` repository: a shallow embedding of
its parser (`src/engine/parser.rs`), code generator (`src/engine/codegen.rs`)
and the two backtracking evaluators (`src/engine/evaluator.rs`), together with
theorems settling the specification's claims about them.

The Rust evaluators contain unbounded loops and recursion, so they are
embedded as fuel-indexed functions: one unit of fuel is consumed per loop
iteration / recursive call, and a `none` result means the fuel ran out.
Termination of the Rust code on some input corresponds to the existence of a
fuel value for which the embedded function returns `some`.
-/

namespace RegexEngine

/-- Parse errors, from `src/engine/parser.rs` (`ParseError`). -/
inductive ParseError where
  | InvalidEscape (pos : Nat) (c : Char)
  | InvalidRightParen (pos : Nat)
  | NoPrev (pos : Nat)
  | NoRightParen
  | Empty
  deriving DecidableEq, Repr

/-- The abstract syntax tree, from `src/engine/parser.rs` (`AST`). -/
inductive AST where
  | Char (c : Char)
  | Plus (e : AST)
  | Star (e : AST)
  | Question (e : AST)
  | Or (e1 : AST) (e2 : AST)
  | Seq (v : List AST)

/-- Selector used by `parse_plus_star_question`, from `src/engine/parser.rs` (`PSQ`). -/
inductive PSQ where
  | Plus
  | Star
  | Question
  deriving DecidableEq, Repr

/-- VM instructions, from `src/engine.rs` (`Instruction`). -/
inductive Instruction where
  | Char (c : Char)
  | Match
  | Jump (addr : Nat)
  | Split (addr1 : Nat) (addr2 : Nat)
  deriving DecidableEq, Repr

/-- Code-generation errors, from `src/engine/codegen.rs` (`CodeGenError`). -/
inductive CodeGenError where
  | PCOverflow
  | FailStar
  | FailOr
  | FailQuestion
  deriving DecidableEq, Repr

/-- Evaluation errors, from `src/engine/evaluator.rs` (`EvalError`). -/
inductive EvalError where
  | PCOverflow
  | SPOverflow
  | InvalidPC
  | InvalidContext
  deriving DecidableEq, Repr

/-- Largest value of the 64-bit `usize` type. -/
def USIZE_MAX : Nat := 2 ^ 64 - 1

/-- Modelled from the spec: the overflow-checked arithmetic helper
(`src/helper.rs`, declared by `lib.rs`/`main.rs` but not present under
`src/`): "a single cross-cutting utility ... to turn address/index overflow
into a recoverable error instead of undefined wraparound".  The repository's
own unit test (`main.rs`, `test_safe_add`) pins the semantics to `usize`
checked addition: `10.safe_add(20) = some 30` and `usize::MAX.safe_add(1) =
none`.  `usize` values are embedded as `Nat` with an explicit `USIZE_MAX`
bound. -/
def safe_add (a b : Nat) : Option Nat :=
  if a + b ≤ USIZE_MAX then some (a + b) else none

/-- `parse_escape` from `src/engine/parser.rs`. -/
def parse_escape (pos : Nat) (c : Char) : Except ParseError AST :=
  if c = '\\' ∨ c = '(' ∨ c = ')' ∨ c = '|' ∨ c = '+' ∨ c = '*' ∨ c = '?' then
    Except.ok (AST.Char c)
  else
    Except.error (ParseError.InvalidEscape pos c)

/-- `parse_plus_star_question` from `src/engine/parser.rs`.  The Rust code
mutates `seq : Vec<AST>` (pop the last element, wrap it, push the result);
here the updated sequence is returned. -/
def parse_plus_star_question (seq : List AST) (ast_type : PSQ) (pos : Nat) :
    Except ParseError (List AST) :=
  match seq.getLast? with
  | some prev =>
      let ast :=
        match ast_type with
        | PSQ.Plus => AST.Plus prev
        | PSQ.Star => AST.Star prev
        | PSQ.Question => AST.Question prev
      Except.ok (seq.dropLast ++ [ast])
  | none => Except.error (ParseError.NoPrev pos)

/-- `fold_or` from `src/engine/parser.rs`: pop the last branch, reverse the
rest, and fold it into a right-associated `Or` chain. -/
def fold_or (seq_or : List AST) : Option AST :=
  if 1 < seq_or.length then
    match seq_or.getLast? with
    | some last =>
        some ((seq_or.dropLast).reverse.foldl (fun ast s => AST.Or s ast) last)
    | none => none
  else
    seq_or.getLast?

/-- Scanner mode of `parse`, from `src/engine/parser.rs` (`ParseState`). -/
inductive ParseState where
  | Char
  | Escape
  deriving DecidableEq, Repr

/-- The body of `parse`'s `for (i, c) in expr.chars().enumerate()` loop from
`src/engine/parser.rs`, as a recursion over the remaining characters.  `seq`
is the current concatenation context, `seq_or` the current alternation
context, and `stack` the saved context pairs (head of the list = top of the
`Vec` stack).  After the loop: unbalanced stack check, final folds, empty
check. -/
def parse_loop : List Char → Nat → ParseState → List AST → List AST →
    List (List AST × List AST) → Except ParseError AST
  | [], _, _, seq, seq_or, stack =>
      if stack.isEmpty then
        let seq_or2 := if seq.isEmpty then seq_or else seq_or ++ [AST.Seq seq]
        match fold_or seq_or2 with
        | some ast => Except.ok ast
        | none => Except.error ParseError.Empty
      else
        Except.error ParseError.NoRightParen
  | c :: rest, i, ParseState.Char, seq, seq_or, stack =>
      if c = '+' then
        match parse_plus_star_question seq PSQ.Plus i with
        | Except.ok seq2 => parse_loop rest (i + 1) ParseState.Char seq2 seq_or stack
        | Except.error e => Except.error e
      else if c = '*' then
        match parse_plus_star_question seq PSQ.Star i with
        | Except.ok seq2 => parse_loop rest (i + 1) ParseState.Char seq2 seq_or stack
        | Except.error e => Except.error e
      else if c = '?' then
        match parse_plus_star_question seq PSQ.Question i with
        | Except.ok seq2 => parse_loop rest (i + 1) ParseState.Char seq2 seq_or stack
        | Except.error e => Except.error e
      else if c = '(' then
        parse_loop rest (i + 1) ParseState.Char [] [] ((seq, seq_or) :: stack)
      else if c = ')' then
        match stack with
        | (prev, prev_or) :: stack2 =>
            let seq_or2 := if seq.isEmpty then seq_or else seq_or ++ [AST.Seq seq]
            let prev2 :=
              match fold_or seq_or2 with
              | some ast => prev ++ [ast]
              | none => prev
            parse_loop rest (i + 1) ParseState.Char prev2 prev_or stack2
        | [] => Except.error (ParseError.InvalidRightParen i)
      else if c = '|' then
        if seq.isEmpty then
          Except.error (ParseError.NoPrev i)
        else
          parse_loop rest (i + 1) ParseState.Char [] (seq_or ++ [AST.Seq seq]) stack
      else if c = '\\' then
        parse_loop rest (i + 1) ParseState.Escape seq seq_or stack
      else
        parse_loop rest (i + 1) ParseState.Char (seq ++ [AST.Char c]) seq_or stack
  | c :: rest, i, ParseState.Escape, seq, seq_or, stack =>
      match parse_escape i c with
      | Except.ok ast => parse_loop rest (i + 1) ParseState.Char (seq ++ [ast]) seq_or stack
      | Except.error e => Except.error e

/-- `parse` from `src/engine/parser.rs`. -/
def parse (expr : String) : Except ParseError AST :=
  parse_loop expr.data 0 ParseState.Char [] [] []

/-- Generator state, from `src/engine/codegen.rs` (`struct Generator`). -/
structure Generator where
  pc : Nat
  insts : List Instruction
  deriving Repr

/-- `Generator::inc_pc` from `src/engine/codegen.rs`. -/
def inc_pc (g : Generator) : Except CodeGenError Generator :=
  match safe_add g.pc 1 with
  | some pc2 => Except.ok { g with pc := pc2 }
  | none => Except.error CodeGenError.PCOverflow

/-- `Generator::gen_char` from `src/engine/codegen.rs`: push `Char(c)`, then
increment the program counter. -/
def gen_char (g : Generator) (c : Char) : Except CodeGenError Generator :=
  inc_pc { g with insts := g.insts ++ [Instruction.Char c] }

/-- `Generator::gen_question` from `src/engine/codegen.rs`: emit
`Split(pc+1, 0)`, emit the body, then backpatch the split's second target.
The recursive call `self.gen_expr(e)?` is passed in as `body`. -/
def gen_question (body : Generator → Except CodeGenError Generator) (g : Generator) :
    Except CodeGenError Generator :=
  let split_addr := g.pc
  match inc_pc g with
  | Except.error err => Except.error err
  | Except.ok g1 =>
      let g2 := { g1 with insts := g1.insts ++ [Instruction.Split g1.pc 0] }
      match body g2 with
      | Except.error err => Except.error err
      | Except.ok g3 =>
          match g3.insts[split_addr]? with
          | some (Instruction.Split a1 _) =>
              Except.ok { g3 with
                insts := g3.insts.set split_addr (Instruction.Split a1 g3.pc) }
          | _ => Except.error CodeGenError.FailQuestion

/-- `Generator::gen_star` from `src/engine/codegen.rs`: emit `Split(pc+1, 0)`,
the body, `Jump` back to the split, then backpatch the split's second
target. -/
def gen_star (body : Generator → Except CodeGenError Generator) (g : Generator) :
    Except CodeGenError Generator :=
  let l1 := g.pc
  match inc_pc g with
  | Except.error err => Except.error err
  | Except.ok g1 =>
      let g2 := { g1 with insts := g1.insts ++ [Instruction.Split g1.pc 0] }
      match body g2 with
      | Except.error err => Except.error err
      | Except.ok g3 =>
          match inc_pc g3 with
          | Except.error err => Except.error err
          | Except.ok g4 =>
              let g5 := { g4 with insts := g4.insts ++ [Instruction.Jump l1] }
              match g5.insts[l1]? with
              | some (Instruction.Split a1 _) =>
                  Except.ok { g5 with
                    insts := g5.insts.set l1 (Instruction.Split a1 g5.pc) }
              | _ => Except.error CodeGenError.FailStar

/-- `Generator::gen_plus` from `src/engine/codegen.rs`: emit the body, then
`Split(l1, pc+1)` looping back to its start. -/
def gen_plus (body : Generator → Except CodeGenError Generator) (g : Generator) :
    Except CodeGenError Generator :=
  let l1 := g.pc
  match body g with
  | Except.error err => Except.error err
  | Except.ok g1 =>
      match inc_pc g1 with
      | Except.error err => Except.error err
      | Except.ok g2 =>
          Except.ok { g2 with insts := g2.insts ++ [Instruction.Split l1 g2.pc] }

/-- `Generator::gen_or` from `src/engine/codegen.rs`: emit `Split(pc+1, 0)`,
`e1`'s code, a placeholder `Jump(0)`, backpatch the split's second target,
emit `e2`'s code, and backpatch the jump's target. -/
def gen_or (body1 body2 : Generator → Except CodeGenError Generator) (g : Generator) :
    Except CodeGenError Generator :=
  let split_addr := g.pc
  match inc_pc g with
  | Except.error err => Except.error err
  | Except.ok g1 =>
      let g2 := { g1 with insts := g1.insts ++ [Instruction.Split g1.pc 0] }
      match body1 g2 with
      | Except.error err => Except.error err
      | Except.ok g3 =>
          let jmp_addr := g3.pc
          let g4 := { g3 with insts := g3.insts ++ [Instruction.Jump 0] }
          match inc_pc g4 with
          | Except.error err => Except.error err
          | Except.ok g5 =>
              match g5.insts[split_addr]? with
              | some (Instruction.Split a1 _) =>
                  let g6 := { g5 with
                    insts := g5.insts.set split_addr (Instruction.Split a1 g5.pc) }
                  match body2 g6 with
                  | Except.error err => Except.error err
                  | Except.ok g7 =>
                      match g7.insts[jmp_addr]? with
                      | some (Instruction.Jump _) =>
                          Except.ok { g7 with
                            insts := g7.insts.set jmp_addr (Instruction.Jump g7.pc) }
                      | _ => Except.error CodeGenError.FailOr
              | _ => Except.error CodeGenError.FailOr

mutual

/-- `Generator::gen_expr` from `src/engine/codegen.rs`, dispatching on the AST
node; the sub-expression emitters receive `gen_expr` on the node's children
as their `body` callbacks. -/
def gen_expr (g : Generator) : AST → Except CodeGenError Generator
  | AST.Char c => gen_char g c
  | AST.Or e1 e2 => gen_or (fun g2 => gen_expr g2 e1) (fun g2 => gen_expr g2 e2) g
  | AST.Plus e => gen_plus (fun g2 => gen_expr g2 e) g
  | AST.Star e => gen_star (fun g2 => gen_expr g2 e) g
  | AST.Question e => gen_question (fun g2 => gen_expr g2 e) g
  | AST.Seq v => gen_seq g v

/-- `Generator::gen_seq` from `src/engine/codegen.rs`. -/
def gen_seq (g : Generator) : List AST → Except CodeGenError Generator
  | [] => Except.ok g
  | e :: es =>
      match gen_expr g e with
      | Except.ok g2 => gen_seq g2 es
      | Except.error err => Except.error err

end

/-- `Generator::gen_code` from `src/engine/codegen.rs`: the whole expression's
code followed by a trailing `Match`. -/
def gen_code (g : Generator) (ast : AST) : Except CodeGenError Generator :=
  match gen_expr g ast with
  | Except.error err => Except.error err
  | Except.ok g1 =>
      match inc_pc g1 with
      | Except.error err => Except.error err
      | Except.ok g2 => Except.ok { g2 with insts := g2.insts ++ [Instruction.Match] }

/-- `get_code` from `src/engine/codegen.rs`: run `gen_code` on a default
(zeroed) generator and return its instruction list. -/
def get_code (ast : AST) : Except CodeGenError (List Instruction) :=
  match gen_code { pc := 0, insts := [] } ast with
  | Except.ok g => Except.ok g.insts
  | Except.error err => Except.error err

/-- `pop_ctx` from `src/engine/evaluator.rs`.  The `VecDeque` context stack is
only ever accessed with `push_back`/`pop_back`, so it is embedded as a list
whose head is the back (most recently pushed) end. -/
def pop_ctx (ctx : List (Nat × Nat)) : Except EvalError (Nat × Nat × List (Nat × Nat)) :=
  match ctx with
  | (new_pc, new_sp) :: rest => Except.ok (new_pc, new_sp, rest)
  | [] => Except.error EvalError.InvalidContext

/-- `eval_depth` from `src/engine/evaluator.rs`, fuel-indexed: one unit of
fuel per loop iteration or recursive `Split` call; `none` means the fuel ran
out. -/
def eval_depth (inst : List Instruction) (line : List Char) :
    Nat → Nat → Nat → Option (Except EvalError Bool)
  | 0, _, _ => none
  | fuel + 1, pc, sp =>
      match inst[pc]? with
      | none => some (Except.error EvalError.InvalidPC)
      | some (Instruction.Char c) =>
          match getElem? line sp with
          | some sp_c =>
              if c = sp_c then
                match safe_add pc 1 with
                | none => some (Except.error EvalError.PCOverflow)
                | some pc2 =>
                    match safe_add sp 1 with
                    | none => some (Except.error EvalError.SPOverflow)
                    | some sp2 => eval_depth inst line fuel pc2 sp2
              else
                some (Except.ok false)
          | none => some (Except.ok false)
      | some Instruction.Match => some (Except.ok true)
      | some (Instruction.Jump addr) => eval_depth inst line fuel addr sp
      | some (Instruction.Split addr1 addr2) =>
          match eval_depth inst line fuel addr1 sp with
          | none => none
          | some (Except.error e) => some (Except.error e)
          | some (Except.ok true) => some (Except.ok true)
          | some (Except.ok false) =>
              match eval_depth inst line fuel addr2 sp with
              | none => none
              | some (Except.error e) => some (Except.error e)
              | some (Except.ok r) => some (Except.ok r)

/-- `eval_width` from `src/engine/evaluator.rs`, fuel-indexed: one unit of
fuel per loop iteration.  The `step` closure is the code that follows the
`match` in the Rust loop body: if the context stack is non-empty, push the
current `(pc, sp)` and immediately pop a context back off.  The `Split` arm
bypasses it via `continue`; the `Char` and `Jump` arms fall through to it.
Note the `Char` arm does nothing when `line.get(sp)` is `None`. -/
def eval_width (inst : List Instruction) (line : List Char) :
    Nat → Nat → Nat → List (Nat × Nat) → Option (Except EvalError Bool)
  | 0, _, _, _ => none
  | fuel + 1, pc, sp, ctx =>
      let step : Nat → Nat → List (Nat × Nat) → Option (Except EvalError Bool) :=
        fun pc2 sp2 ctx2 =>
          if ctx2.isEmpty then
            eval_width inst line fuel pc2 sp2 ctx2
          else
            match pop_ctx ((pc2, sp2) :: ctx2) with
            | Except.error e => some (Except.error e)
            | Except.ok (pc3, sp3, ctx3) => eval_width inst line fuel pc3 sp3 ctx3
      match inst[pc]? with
      | none => some (Except.error EvalError.InvalidPC)
      | some (Instruction.Char c) =>
          match getElem? line sp with
          | some sp_c =>
              if c = sp_c then
                match safe_add pc 1 with
                | none => some (Except.error EvalError.PCOverflow)
                | some pc2 =>
                    match safe_add sp 1 with
                    | none => some (Except.error EvalError.SPOverflow)
                    | some sp2 => step pc2 sp2 ctx
              else
                if ctx.isEmpty then
                  some (Except.ok false)
                else
                  match pop_ctx ctx with
                  | Except.error e => some (Except.error e)
                  | Except.ok (pc2, sp2, ctx2) => step pc2 sp2 ctx2
          | none => step pc sp ctx
      | some Instruction.Match => some (Except.ok true)
      | some (Instruction.Jump addr) => step addr sp ctx
      | some (Instruction.Split addr1 addr2) =>
          eval_width inst line fuel addr1 sp ((addr2, sp) :: ctx)

/-- `eval` from `src/engine/evaluator.rs`, fuel-indexed. -/
def eval (inst : List Instruction) (line : List Char) (is_depth : Bool) (fuel : Nat) :
    Option (Except EvalError Bool) :=
  if is_depth then eval_depth inst line fuel 0 0
  else eval_width inst line fuel 0 0 []

/-- Variant of `eval_width` stated by the spec for claim C9: identical except
that the post-step push-then-pop round trip on a non-empty context stack
(`step` in `eval_width`) is removed, execution continuing directly. -/
def eval_width_no_roundtrip (inst : List Instruction) (line : List Char) :
    Nat → Nat → Nat → List (Nat × Nat) → Option (Except EvalError Bool)
  | 0, _, _, _ => none
  | fuel + 1, pc, sp, ctx =>
      match inst[pc]? with
      | none => some (Except.error EvalError.InvalidPC)
      | some (Instruction.Char c) =>
          match getElem? line sp with
          | some sp_c =>
              if c = sp_c then
                match safe_add pc 1 with
                | none => some (Except.error EvalError.PCOverflow)
                | some pc2 =>
                    match safe_add sp 1 with
                    | none => some (Except.error EvalError.SPOverflow)
                    | some sp2 => eval_width_no_roundtrip inst line fuel pc2 sp2 ctx
              else
                if ctx.isEmpty then
                  some (Except.ok false)
                else
                  match pop_ctx ctx with
                  | Except.error e => some (Except.error e)
                  | Except.ok (pc2, sp2, ctx2) =>
                      eval_width_no_roundtrip inst line fuel pc2 sp2 ctx2
          | none => eval_width_no_roundtrip inst line fuel pc sp ctx
      | some Instruction.Match => some (Except.ok true)
      | some (Instruction.Jump addr) => eval_width_no_roundtrip inst line fuel addr sp ctx
      | some (Instruction.Split addr1 addr2) =>
          eval_width_no_roundtrip inst line fuel addr1 sp ((addr2, sp) :: ctx)

/-- Targets of an instruction: the addresses a `Jump` or `Split` can transfer
control to. -/
def instTargets : Instruction → List Nat
  | Instruction.Char _ => []
  | Instruction.Match => []
  | Instruction.Jump a => [a]
  | Instruction.Split a b => [a, b]

mutual

/-- Pure layout of the code `gen_expr` emits for an AST when generation
starts at program counter `s` (all Jump/Split targets are absolute
addresses, hence the parameter). -/
def frag : AST → Nat → List Instruction
  | AST.Char c, _ => [Instruction.Char c]
  | AST.Or e1 e2, s =>
      let b1 := frag e1 (s + 1)
      let b2 := frag e2 (s + 1 + b1.length + 1)
      Instruction.Split (s + 1) (s + 1 + b1.length + 1) ::
        (b1 ++ Instruction.Jump (s + 1 + b1.length + 1 + b2.length) :: b2)
  | AST.Plus e, s =>
      let b := frag e s
      b ++ [Instruction.Split s (s + b.length + 1)]
  | AST.Star e, s =>
      let b := frag e (s + 1)
      Instruction.Split (s + 1) (s + 1 + b.length + 1) ::
        (b ++ [Instruction.Jump s])
  | AST.Question e, s =>
      let b := frag e (s + 1)
      Instruction.Split (s + 1) (s + 1 + b.length) :: b
  | AST.Seq v, s => fragList v s

/-- Pure layout of the code `gen_seq` emits for a list of ASTs. -/
def fragList : List AST → Nat → List Instruction
  | [], _ => []
  | e :: es, s => frag e s ++ fragList es (s + (frag e s).length)

end

mutual

/-- Whether an AST can match the empty string (zero-width). -/
def nullable : AST → Bool
  | AST.Char _ => false
  | AST.Plus e => nullable e
  | AST.Star _ => true
  | AST.Question _ => true
  | AST.Or e1 e2 => nullable e1 || nullable e2
  | AST.Seq v => nullableList v

/-- Whether every AST in a list is nullable. -/
def nullableList : List AST → Bool
  | [] => true
  | e :: es => nullable e && nullableList es

end

mutual

/-- The claim's restriction: the AST contains no zero-width repeated
sub-expression, i.e. no `Star` or `Plus` whose body can match the empty
string. -/
def no_empty_rep : AST → Bool
  | AST.Char _ => true
  | AST.Plus e => !nullable e && no_empty_rep e
  | AST.Star e => !nullable e && no_empty_rep e
  | AST.Question e => no_empty_rep e
  | AST.Or e1 e2 => no_empty_rep e1 && no_empty_rep e2
  | AST.Seq v => noEmptyRepList v

/-- `no_empty_rep` on every AST of a list. -/
def noEmptyRepList : List AST → Bool
  | [] => true
  | e :: es => no_empty_rep e && noEmptyRepList es

end

mutual

/-- Rank of a fragment's entry slot, given the rank `R` of its exit slot.
Ranks strictly decrease along every `Jump`/`Split` target edge of the
compiled code of an AST satisfying `no_empty_rep`; they are the certificate
that the only control cycles run through a `Char` instruction. -/
def entryRk : AST → Nat → Nat
  | AST.Char _, _ => 0
  | AST.Question e, R => max (entryRk e R) R + 1
  | AST.Star e, R => max (entryRk e 0) R + 1
  | AST.Plus e, _ => entryRk e 0
  | AST.Or e1 e2, R =>
      if nullable e1 || nullable e2 then
        max (max (entryRk e1 (R + 1)) (entryRk e2 R)) R + 1
      else
        max (entryRk e1 (R + 1)) (entryRk e2 R) + 1
  | AST.Seq v, R => entryRkList v R

/-- Entry rank of a concatenation, given the rank of its exit slot. -/
def entryRkList : List AST → Nat → Nat
  | [], R => R
  | e :: es, R => entryRk e (entryRkList es R)

end

mutual

/-- Rank of the slot `pc` inside the fragment of an AST laid out at start
address `s`, whose exit slot has rank `R`.  Only slots in
`[s, s + (frag e s).length)` are meaningful. -/
def rankOf : AST → Nat → Nat → Nat → Nat
  | AST.Char _, _, _, _ => 0
  | AST.Question e, s, R, pc =>
      if pc = s then max (entryRk e R) R + 1
      else rankOf e (s + 1) R pc
  | AST.Star e, s, R, pc =>
      if pc = s then max (entryRk e 0) R + 1
      else if pc = s + 1 + (frag e (s + 1)).length then max (entryRk e 0) R + 1 + 1
      else rankOf e (s + 1) (max (entryRk e 0) R + 1 + 1) pc
  | AST.Plus e, s, R, pc =>
      if pc = s + (frag e s).length then max (entryRk e 0) R + 1
      else rankOf e s (max (entryRk e 0) R + 1) pc
  | AST.Or e1 e2, s, R, pc =>
      if pc = s then entryRk (AST.Or e1 e2) R
      else if pc = s + 1 + (frag e1 (s + 1)).length then R + 1
      else if pc < s + 1 + (frag e1 (s + 1)).length then rankOf e1 (s + 1) (R + 1) pc
      else rankOf e2 (s + 1 + (frag e1 (s + 1)).length + 1) R pc
  | AST.Seq v, s, R, pc => rankOfList v s R pc

/-- Rank of the slot `pc` inside the fragment of a concatenation. -/
def rankOfList : List AST → Nat → Nat → Nat → Nat
  | [], _, _, _ => 0
  | e :: es, s, R, pc =>
      if pc < s + (frag e s).length then rankOf e s (entryRkList es R) pc
      else rankOfList es (s + (frag e s).length) R pc

end

/-- `rankOf` extended past the fragment: slots at or beyond the exit get the
exit rank `R`. -/
def rkExt (e : AST) (s R pc : Nat) : Nat :=
  if s + (frag e s).length ≤ pc then R else rankOf e s R pc

mutual

/-- Upper bound on how much `rankOf`/`entryRk` of an AST can exceed the exit
rank. -/
def rbound : AST → Nat
  | AST.Char _ => 1
  | AST.Question e => rbound e + 1
  | AST.Star e => 2 * rbound e + 2
  | AST.Plus e => 2 * rbound e + 1
  | AST.Or e1 e2 => rbound e1 + rbound e2 + 2
  | AST.Seq v => rboundList v

/-- Sum of the rank bounds of a list of ASTs. -/
def rboundList : List AST → Nat
  | [] => 0
  | e :: es => rbound e + rboundList es

end

/-! ## Supporting lemmas -/

/-- A list indexed at the length of a prefixed list yields the next element. -/
theorem getElem?_append_cons {α : Type} (l1 : List α) (x : α) (l2 : List α) :
    (l1 ++ x :: l2)[l1.length]? = some x := by
  induction l1 with
  | nil => simp
  | cons a as ih => simpa using ih

/-- Setting the element at the length of a prefixed list replaces the next
element. -/
theorem set_append_cons {α : Type} (l1 : List α) (x y : α) (l2 : List α) :
    (l1 ++ x :: l2).set l1.length y = l1 ++ y :: l2 := by
  induction l1 with
  | nil => rfl
  | cons a as ih => simp [ih]

/-- Variant of `getElem?_append_cons` taking the index as an equation. -/
theorem getElem?_append_cons_len {α : Type} (l1 : List α) (x : α) (l2 : List α) (n : Nat)
    (h : n = l1.length) : (l1 ++ x :: l2)[n]? = some x := by
  subst h; exact getElem?_append_cons l1 x l2

/-- Variant of `set_append_cons` taking the index as an equation. -/
theorem set_append_cons_len {α : Type} (l1 : List α) (x y : α) (l2 : List α) (n : Nat)
    (h : n = l1.length) : (l1 ++ x :: l2).set n y = l1 ++ y :: l2 := by
  subst h; exact set_append_cons l1 x y l2

/-- `inc_pc` either overflows or increments the program counter. -/
theorem inc_pc_spec (g : Generator) :
    inc_pc g = Except.error CodeGenError.PCOverflow ∨
    inc_pc g = Except.ok ⟨g.pc + 1, g.insts⟩ := by
  unfold inc_pc safe_add
  by_cases h : g.pc + 1 ≤ USIZE_MAX
  · right; rw [if_pos h]
  · left; rw [if_neg h]

/-- Every AST has positive size. -/
theorem ast_sizeOf_pos (e : AST) : 0 < sizeOf e := by
  cases e <;> simp_arith


/-- Fuel monotonicity of `eval_depth`: a result obtained with some fuel is
also obtained with any larger fuel. -/
theorem eval_depth_mono (inst : List Instruction) (line : List Char) :
    ∀ (fuel fuel2 pc sp : Nat) (r : Except EvalError Bool), fuel ≤ fuel2 →
      eval_depth inst line fuel pc sp = some r →
      eval_depth inst line fuel2 pc sp = some r := by
  intro fuel
  induction fuel with
  | zero => intro fuel2 pc sp r _ h; simp [eval_depth] at h
  | succ n ih =>
    intro fuel2 pc sp r hle h
    obtain ⟨m, rfl⟩ : ∃ m, fuel2 = m + 1 := ⟨fuel2 - 1, by omega⟩
    have hnm : n ≤ m := by omega
    simp only [eval_depth] at h ⊢
    cases hinst : inst[pc]? with
    | none => simp only [hinst] at h ⊢; exact h
    | some i =>
      cases i with
      | Char c =>
        simp only [hinst] at h ⊢
        cases hline : getElem? line sp with
        | none => simp only [hline] at h ⊢; exact h
        | some d =>
          simp only [hline] at h ⊢
          by_cases hc : c = d
          · rw [if_pos hc] at h ⊢
            cases hpc : safe_add pc 1 with
            | none => simp only [hpc] at h ⊢; exact h
            | some pc2 =>
              simp only [hpc] at h ⊢
              cases hsp : safe_add sp 1 with
              | none => simp only [hsp] at h ⊢; exact h
              | some sp2 =>
                simp only [hsp] at h ⊢
                exact ih m pc2 sp2 r hnm h
          · rw [if_neg hc] at h ⊢; exact h
      | Match => simp only [hinst] at h ⊢; exact h
      | Jump addr =>
        simp only [hinst] at h ⊢
        exact ih m addr sp r hnm h
      | Split addr1 addr2 =>
        simp only [hinst] at h ⊢
        cases h1 : eval_depth inst line n addr1 sp with
        | none => rw [h1] at h; exact absurd h (by simp)
        | some u =>
          rw [h1] at h
          rw [ih m addr1 sp u hnm h1]
          cases u with
          | error e => exact h
          | ok b =>
            cases b with
            | true => exact h
            | false =>
              simp only at h ⊢
              cases h2 : eval_depth inst line n addr2 sp with
              | none => rw [h2] at h; exact absurd h (by simp)
              | some u2 =>
                rw [h2] at h
                rw [ih m addr2 sp u2 hnm h2]
                exact h

/-- One-step unfolding of `eval_width`: the post-step push-then-pop round
trip restores exactly the state it was given, so a successor-fuel call
reduces to a direct recursive call on the updated state. -/
theorem eval_width_step (inst : List Instruction) (line : List Char) (n pc sp : Nat)
    (ctx : List (Nat × Nat)) :
    eval_width inst line (n + 1) pc sp ctx =
      match inst[pc]? with
      | none => some (Except.error EvalError.InvalidPC)
      | some (Instruction.Char c) =>
          match getElem? line sp with
          | some sp_c =>
              if c = sp_c then
                match safe_add pc 1 with
                | none => some (Except.error EvalError.PCOverflow)
                | some pc2 =>
                    match safe_add sp 1 with
                    | none => some (Except.error EvalError.SPOverflow)
                    | some sp2 => eval_width inst line n pc2 sp2 ctx
              else
                match ctx with
                | [] => some (Except.ok false)
                | (pc2, sp2) :: ctx2 => eval_width inst line n pc2 sp2 ctx2
          | none => eval_width inst line n pc sp ctx
      | some Instruction.Match => some (Except.ok true)
      | some (Instruction.Jump addr) => eval_width inst line n addr sp ctx
      | some (Instruction.Split addr1 addr2) =>
          eval_width inst line n addr1 sp ((addr2, sp) :: ctx) := by
  have hstep : ∀ (a b : Nat) (c : List (Nat × Nat)),
      (if c.isEmpty then eval_width inst line n a b c
       else
         match pop_ctx ((a, b) :: c) with
         | Except.error e => some (Except.error e)
         | Except.ok (a2, b2, c2) => eval_width inst line n a2 b2 c2) =
      eval_width inst line n a b c := by
    intro a b c
    by_cases hc : c.isEmpty <;> simp [hc, pop_ctx]
  simp only [eval_width]
  cases hinst : inst[pc]? with
  | none => rfl
  | some i =>
    cases i with
    | Char c =>
      dsimp only
      cases hline : getElem? line sp with
      | none => exact hstep pc sp ctx
      | some d =>
        dsimp only
        by_cases hc : c = d
        · rw [if_pos hc, if_pos hc]
          cases hpc : safe_add pc 1 with
          | none => rfl
          | some pc2 =>
            dsimp only
            cases hsp : safe_add sp 1 with
            | none => rfl
            | some sp2 => exact hstep pc2 sp2 ctx
        · rw [if_neg hc, if_neg hc]
          cases ctx with
          | nil => rfl
          | cons head tail =>
            cases head with
            | mk a b => simp only [pop_ctx]; exact hstep a b tail
    | Match => rfl
    | Jump addr => exact hstep addr sp ctx
    | Split addr1 addr2 => rfl


/-- Fuel monotonicity of `eval_width`: a result obtained with some fuel is
also obtained with any larger fuel. -/
theorem eval_width_mono (inst : List Instruction) (line : List Char) :
    ∀ (fuel fuel2 pc sp : Nat) (ctx : List (Nat × Nat)) (r : Except EvalError Bool),
      fuel ≤ fuel2 →
      eval_width inst line fuel pc sp ctx = some r →
      eval_width inst line fuel2 pc sp ctx = some r := by
  intro fuel
  induction fuel with
  | zero => intro _ _ _ _ _ _ h; simp [eval_width] at h
  | succ n ih =>
    intro fuel2 pc sp ctx r hle h
    obtain ⟨m, rfl⟩ : ∃ m, fuel2 = m + 1 := ⟨fuel2 - 1, by omega⟩
    have hnm : n ≤ m := by omega
    rw [eval_width_step] at h ⊢
    cases hinst : inst[pc]? with
    | none => rw [hinst] at h; exact h
    | some i =>
      rw [hinst] at h
      cases i with
      | Char c =>
        dsimp only at h ⊢
        cases hline : getElem? line sp with
        | none => rw [hline] at h; exact ih m pc sp ctx r hnm h
        | some d =>
          rw [hline] at h
          dsimp only at h ⊢
          by_cases hc : c = d
          · rw [if_pos hc] at h ⊢
            cases hpc : safe_add pc 1 with
            | none => rw [hpc] at h; exact h
            | some pc2 =>
              rw [hpc] at h
              dsimp only at h ⊢
              cases hsp : safe_add sp 1 with
              | none => rw [hsp] at h; exact h
              | some sp2 =>
                rw [hsp] at h
                exact ih m pc2 sp2 ctx r hnm h
          · rw [if_neg hc] at h ⊢
            cases ctx with
            | nil => exact h
            | cons head tail =>
              cases head with
              | mk a b => exact ih m a b tail r hnm h
      | Match => exact h
      | Jump addr => exact ih m addr sp ctx r hnm h
      | Split addr1 addr2 => exact ih m addr1 sp ((addr2, sp) :: ctx) r hnm h

/-- `eval_width` never produces the `InvalidContext` error: both `pop_ctx`
call sites are reached only with a non-empty context stack. -/
theorem eval_width_not_invalid_context (inst : List Instruction) (line : List Char) :
    ∀ (fuel pc sp : Nat) (ctx : List (Nat × Nat)),
      eval_width inst line fuel pc sp ctx ≠
        some (Except.error EvalError.InvalidContext) := by
  intro fuel
  induction fuel with
  | zero => intro pc sp ctx; simp [eval_width]
  | succ n ih =>
    intro pc sp ctx
    rw [eval_width_step]
    cases hinst : inst[pc]? with
    | none => simp
    | some i =>
      cases i with
      | Char c =>
        dsimp only
        cases hline : getElem? line sp with
        | none => exact ih pc sp ctx
        | some d =>
          dsimp only
          by_cases hc : c = d
          · rw [if_pos hc]
            cases hpc : safe_add pc 1 with
            | none => simp
            | some pc2 =>
              dsimp only
              cases hsp : safe_add sp 1 with
              | none => simp
              | some sp2 => exact ih pc2 sp2 ctx
          · rw [if_neg hc]
            cases ctx with
            | nil => simp
            | cons head tail =>
              cases head with
              | mk a b => exact ih a b tail
      | Match => simp
      | Jump addr => exact ih addr sp ctx
      | Split addr1 addr2 => exact ih addr1 sp ((addr2, sp) :: ctx)

/-- On the program compiled from the pattern `"a"` and the empty input,
`eval_width` never returns, whatever the fuel: the `Char` arm does nothing
when no character exists at the current position, and the trailing
push-then-pop round trip restores the very same state. -/
theorem eval_width_char_empty_stuck : ∀ fuel : Nat,
    eval_width [Instruction.Char 'a', Instruction.Match] [] fuel 0 0 [] = none := by
  intro fuel
  induction fuel with
  | zero => rfl
  | succ n ih => exact ih


/-- Result agreement for `eval_depth` across fuels: any two `some` results at
the same state coincide. -/
theorem eval_depth_agree (inst : List Instruction) (line : List Char)
    (f1 f2 pc sp : Nat) (r1 r2 : Except EvalError Bool)
    (h1 : eval_depth inst line f1 pc sp = some r1)
    (h2 : eval_depth inst line f2 pc sp = some r2) : r1 = r2 := by
  rcases le_total f1 f2 with h | h
  · have hh := eval_depth_mono inst line f1 f2 pc sp r1 h h1
    rw [hh] at h2
    exact Option.some.inj h2
  · have hh := eval_depth_mono inst line f2 f1 pc sp r2 h h2
    rw [hh] at h1
    exact (Option.some.inj h1).symm

/-- Result agreement for `eval_width` across fuels. -/
theorem eval_width_agree (inst : List Instruction) (line : List Char)
    (f1 f2 pc sp : Nat) (ctx : List (Nat × Nat)) (r1 r2 : Except EvalError Bool)
    (h1 : eval_width inst line f1 pc sp ctx = some r1)
    (h2 : eval_width inst line f2 pc sp ctx = some r2) : r1 = r2 := by
  rcases le_total f1 f2 with h | h
  · have hh := eval_width_mono inst line f1 f2 pc sp ctx r1 h h1
    rw [hh] at h2
    exact Option.some.inj h2
  · have hh := eval_width_mono inst line f2 f1 pc sp ctx r2 h h2
    rw [hh] at h1
    exact (Option.some.inj h1).symm

/-- `eval_width` and its round-trip-free variant agree at every state and
fuel. -/
theorem eval_width_roundtrip_aux (inst : List Instruction) (line : List Char) :
    ∀ (fuel pc sp : Nat) (ctx : List (Nat × Nat)),
      eval_width inst line fuel pc sp ctx =
        eval_width_no_roundtrip inst line fuel pc sp ctx := by
  intro fuel
  induction fuel with
  | zero => intro _ _ _; rfl
  | succ n ih =>
    intro pc sp ctx
    rw [eval_width_step]
    simp only [eval_width_no_roundtrip]
    cases hinst : inst[pc]? with
    | none => rfl
    | some i =>
      cases i with
      | Char c =>
        dsimp only
        cases hline : getElem? line sp with
        | none => exact ih pc sp ctx
        | some d =>
          dsimp only
          by_cases hc : c = d
          · rw [if_pos hc, if_pos hc]
            cases hpc : safe_add pc 1 with
            | none => rfl
            | some pc2 =>
              dsimp only
              cases hsp : safe_add sp 1 with
              | none => rfl
              | some sp2 => exact ih pc2 sp2 ctx
          · rw [if_neg hc, if_neg hc]
            cases ctx with
            | nil => rfl
            | cons head tail =>
              cases head with
              | mk a b => simp only [pop_ctx, List.isEmpty_cons]; exact ih a b tail
      | Match => rfl
      | Jump addr => exact ih addr sp ctx
      | Split addr1 addr2 => exact ih addr1 sp ((addr2, sp) :: ctx)

/-! ## Claims -/

/-- C1: the claim states that in `eval_width`, a `Char` instruction with no
character at the current position fails the match (empty context stack) or
pops the most recent context.  The code instead hangs: the `Char` arm's
`if let` has no else branch, so the state never changes.  On the program
compiled from the pattern `"a"` with empty input, `eval_width` returns no
result at any fuel. -/
theorem c1_char_absent_hangs :
    parse "a" = Except.ok (AST.Seq [AST.Char 'a']) ∧
    get_code (AST.Seq [AST.Char 'a']) =
      Except.ok [Instruction.Char 'a', Instruction.Match] ∧
    ∀ fuel : Nat,
      eval_width [Instruction.Char 'a', Instruction.Match] [] fuel 0 0 [] = none :=
  ⟨rfl, rfl, eval_width_char_empty_stuck⟩

/-- C2: the claim states that `eval_depth` and `eval_width` return identical
booleans on every pattern without zero-width repeated sub-expressions.  On
the repetition-free pattern `"a"` with empty input, `eval_depth` returns
`false` while `eval_width` never returns at any fuel. -/
theorem c2_strategies_disagree :
    parse "a" = Except.ok (AST.Seq [AST.Char 'a']) ∧
    get_code (AST.Seq [AST.Char 'a']) =
      Except.ok [Instruction.Char 'a', Instruction.Match] ∧
    eval_depth [Instruction.Char 'a', Instruction.Match] [] 1 0 0 =
      some (Except.ok false) ∧
    ∀ fuel : Nat,
      eval_width [Instruction.Char 'a', Instruction.Match] [] fuel 0 0 [] = none :=
  ⟨rfl, rfl, rfl, eval_width_char_empty_stuck⟩

/-- C4 (counterexample): matching `"abc?"` against `"acb"` does not return
`true` under either strategy: `Char('b')` at pc 1 meets `'c'` at position 1
before any `Split` has produced a pending alternative. -/
theorem c4_counterexample :
    parse "abc?" =
      Except.ok (AST.Seq [AST.Char 'a', AST.Char 'b', AST.Question (AST.Char 'c')]) ∧
    get_code (AST.Seq [AST.Char 'a', AST.Char 'b', AST.Question (AST.Char 'c')]) =
      Except.ok [Instruction.Char 'a', Instruction.Char 'b', Instruction.Split 3 4,
        Instruction.Char 'c', Instruction.Match] ∧
    (∀ fuel : Nat,
      eval_depth [Instruction.Char 'a', Instruction.Char 'b', Instruction.Split 3 4,
        Instruction.Char 'c', Instruction.Match] "acb".data fuel 0 0 ≠
        some (Except.ok true)) ∧
    (∀ fuel : Nat,
      eval_width [Instruction.Char 'a', Instruction.Char 'b', Instruction.Split 3 4,
        Instruction.Char 'c', Instruction.Match] "acb".data fuel 0 0 [] ≠
        some (Except.ok true)) := by
  refine ⟨rfl, rfl, fun fuel h => ?_, fun fuel h => ?_⟩
  · have hf : eval_depth [Instruction.Char 'a', Instruction.Char 'b', Instruction.Split 3 4,
        Instruction.Char 'c', Instruction.Match] "acb".data 3 0 0 =
        some (Except.ok false) := rfl
    have := eval_depth_agree _ _ fuel 3 0 0 _ _ h hf
    simp at this
  · have hf : eval_width [Instruction.Char 'a', Instruction.Char 'b', Instruction.Split 3 4,
        Instruction.Char 'c', Instruction.Match] "acb".data 3 0 0 [] =
        some (Except.ok false) := rfl
    have := eval_width_agree _ _ fuel 3 0 0 [] _ _ h hf
    simp at this

/-- C4 (amended): matching `"abc?"` against `"acb"` returns `false`, and both
evaluator strategies agree on that boolean. -/
theorem c4_amended :
    parse "abc?" =
      Except.ok (AST.Seq [AST.Char 'a', AST.Char 'b', AST.Question (AST.Char 'c')]) ∧
    get_code (AST.Seq [AST.Char 'a', AST.Char 'b', AST.Question (AST.Char 'c')]) =
      Except.ok [Instruction.Char 'a', Instruction.Char 'b', Instruction.Split 3 4,
        Instruction.Char 'c', Instruction.Match] ∧
    eval [Instruction.Char 'a', Instruction.Char 'b', Instruction.Split 3 4,
      Instruction.Char 'c', Instruction.Match] "acb".data true 10 =
      some (Except.ok false) ∧
    eval [Instruction.Char 'a', Instruction.Char 'b', Instruction.Split 3 4,
      Instruction.Char 'c', Instruction.Match] "acb".data false 10 =
      some (Except.ok false) :=
  ⟨rfl, rfl, rfl, rfl⟩

/-- C7: `fold_or` yields no AST for zero branches, the branch itself for one
branch, and the right-associated chain `Or(b1, Or(b2, b3))` for branches
`[b1, b2, b3]`. -/
theorem c7_fold_or_cases :
    fold_or [] = none ∧
    (∀ b : AST, fold_or [b] = some b) ∧
    (∀ b1 b2 b3 : AST, fold_or [b1, b2, b3] = some (AST.Or b1 (AST.Or b2 b3))) :=
  ⟨rfl, fun _ => rfl, fun _ _ _ => rfl⟩

/-- C8: a pattern whose first character is a postfix operator (`+`, `*`, `?`,
`|`) parses to a "no preceding expression" error at position 0. -/
theorem c8_leading_postfix_noprev (s : String) (c : Char) (rest : List Char)
    (hdata : s.data = c :: rest)
    (hc : c = '+' ∨ c = '*' ∨ c = '?' ∨ c = '|') :
    parse s = Except.error (ParseError.NoPrev 0) := by
  unfold parse
  rw [hdata]
  rcases hc with rfl | rfl | rfl | rfl <;> rfl

/-- Witness for C8 at the concrete pattern `"+a"`. -/
theorem c8_witness :
    "+a".data = '+' :: ['a'] ∧
    ('+' = '+' ∨ '+' = '*' ∨ '+' = '?' ∨ '+' = '|') ∧
    parse "+a" = Except.error (ParseError.NoPrev 0) :=
  ⟨rfl, Or.inl rfl, c8_leading_postfix_noprev "+a" '+' ['a'] rfl (Or.inl rfl)⟩

/-- C9: the post-step push-then-pop round trip of `eval_width` has no
observable effect: `eval_width` and the variant with the round trip removed
return the same result for every instruction sequence, input and fuel. -/
theorem c9_roundtrip_no_effect (inst : List Instruction) (line : List Char) (fuel : Nat) :
    eval_width inst line fuel 0 0 [] = eval_width_no_roundtrip inst line fuel 0 0 [] :=
  eval_width_roundtrip_aux inst line fuel 0 0 []

/-- C10: `eval_width` never returns the `InvalidContext` error, for any
instruction sequence, input and fuel: both `pop_ctx` call sites require a
non-empty context stack. -/
theorem c10_no_invalid_context (inst : List Instruction) (line : List Char) (fuel : Nat) :
    eval_width inst line fuel 0 0 [] ≠
      some (Except.error EvalError.InvalidContext) :=
  eval_width_not_invalid_context inst line fuel 0 0 []


set_option maxHeartbeats 1000000 in
theorem gen_spec_size : ∀ (N : Nat) (e : AST), sizeOf e ≤ N → ∀ g : Generator,
    g.pc = g.insts.length →
    gen_expr g e = Except.error CodeGenError.PCOverflow ∨
    gen_expr g e = Except.ok ⟨g.pc + (frag e g.pc).length, g.insts ++ frag e g.pc⟩ := by
  intro N
  induction N with
  | zero =>
    intro e he
    exact absurd he (by have := ast_sizeOf_pos e; omega)
  | succ N ih =>
    intro e he g hg
    cases e with
    | Char c =>
      simp only [gen_expr, gen_char, frag]
      rcases inc_pc_spec ⟨g.pc, g.insts ++ [Instruction.Char c]⟩ with h | h
      · left; rw [show ({ g with insts := g.insts ++ [Instruction.Char c] } : Generator) = ⟨g.pc, g.insts ++ [Instruction.Char c]⟩ from rfl, h]
      · right; rw [show ({ g with insts := g.insts ++ [Instruction.Char c] } : Generator) = ⟨g.pc, g.insts ++ [Instruction.Char c]⟩ from rfl, h]
        simp
    | Question e =>
      have he2 : sizeOf e ≤ N := by simp_arith at he; omega
      simp only [gen_expr, gen_question]
      rcases inc_pc_spec g with h | h
      · left; rw [h]
      · rw [h]
        dsimp only
        have hg2 : (⟨g.pc + 1, g.insts ++ [Instruction.Split (g.pc + 1) 0]⟩ : Generator).pc =
            (⟨g.pc + 1, g.insts ++ [Instruction.Split (g.pc + 1) 0]⟩ : Generator).insts.length := by
          simp [hg]
        rcases ih e he2 ⟨g.pc + 1, g.insts ++ [Instruction.Split (g.pc + 1) 0]⟩ hg2 with h2 | h2
        · left; rw [h2]
        · rw [h2]
          dsimp only
          have hassoc : (g.insts ++ [Instruction.Split (g.pc + 1) 0]) ++ frag e (g.pc + 1) =
              g.insts ++ (Instruction.Split (g.pc + 1) 0 :: frag e (g.pc + 1)) := by simp
          rw [hassoc]
          have hget : (g.insts ++ (Instruction.Split (g.pc + 1) 0 :: frag e (g.pc + 1)))[g.pc]? =
              some (Instruction.Split (g.pc + 1) 0) := by
            rw [hg]; exact getElem?_append_cons _ _ _
          rw [hget]
          dsimp only
          have hset : (g.insts ++ (Instruction.Split (g.pc + 1) 0 :: frag e (g.pc + 1))).set g.pc
              (Instruction.Split (g.pc + 1) (g.pc + 1 + (frag e (g.pc + 1)).length)) =
              g.insts ++ (Instruction.Split (g.pc + 1) (g.pc + 1 + (frag e (g.pc + 1)).length) ::
                frag e (g.pc + 1)) := by
            rw [hg]; exact set_append_cons _ _ _ _
          rw [hset]
          right
          simp only [frag, List.length_cons]
          congr 2
          omega
    | Star e =>
      have he2 : sizeOf e ≤ N := by simp_arith at he; omega
      simp only [gen_expr, gen_star]
      rcases inc_pc_spec g with h | h
      · left; rw [h]
      · rw [h]
        dsimp only
        rcases ih e he2 ⟨g.pc + 1, g.insts ++ [Instruction.Split (g.pc + 1) 0]⟩
            (by simp [hg]) with h2 | h2
        · left; rw [h2]
        · rw [h2]
          dsimp only
          rcases inc_pc_spec ⟨g.pc + 1 + (frag e (g.pc + 1)).length,
              (g.insts ++ [Instruction.Split (g.pc + 1) 0]) ++ frag e (g.pc + 1)⟩ with h3 | h3
          · left; rw [h3]
          · rw [h3]
            dsimp only
            have hshape : ((g.insts ++ [Instruction.Split (g.pc + 1) 0]) ++ frag e (g.pc + 1)) ++
                [Instruction.Jump g.pc] =
                g.insts ++ (Instruction.Split (g.pc + 1) 0 ::
                  (frag e (g.pc + 1) ++ [Instruction.Jump g.pc])) := by simp
            rw [hshape]
            have hget : (g.insts ++ (Instruction.Split (g.pc + 1) 0 ::
                (frag e (g.pc + 1) ++ [Instruction.Jump g.pc])))[g.pc]? =
                some (Instruction.Split (g.pc + 1) 0) := by
              rw [hg]; exact getElem?_append_cons _ _ _
            rw [hget]
            dsimp only
            have hset : (g.insts ++ (Instruction.Split (g.pc + 1) 0 ::
                (frag e (g.pc + 1) ++ [Instruction.Jump g.pc]))).set g.pc
                (Instruction.Split (g.pc + 1) (g.pc + 1 + (frag e (g.pc + 1)).length + 1)) =
                g.insts ++ (Instruction.Split (g.pc + 1)
                  (g.pc + 1 + (frag e (g.pc + 1)).length + 1) ::
                  (frag e (g.pc + 1) ++ [Instruction.Jump g.pc])) := by
              rw [hg]; exact set_append_cons _ _ _ _
            rw [hset]
            right
            simp only [frag, Except.ok.injEq, Generator.mk.injEq, List.length_cons,
              List.length_append, List.length_nil]
            exact ⟨by omega, trivial⟩
    | Plus e =>
      have he2 : sizeOf e ≤ N := by simp_arith at he; omega
      simp only [gen_expr, gen_plus]
      rcases ih e he2 g hg with h1 | h1
      · left; rw [h1]
      · rw [h1]
        dsimp only
        rcases inc_pc_spec ⟨g.pc + (frag e g.pc).length, g.insts ++ frag e g.pc⟩ with h2 | h2
        · left; rw [h2]
        · rw [h2]
          dsimp only
          right
          simp only [frag, Except.ok.injEq, Generator.mk.injEq, List.length_append,
            List.length_cons, List.length_nil]
          exact ⟨by omega, by simp⟩
    | Or e1 e2 =>
      have he1 : sizeOf e1 ≤ N := by simp_arith at he; omega
      have he2 : sizeOf e2 ≤ N := by simp_arith at he; omega
      simp only [gen_expr, gen_or]
      rcases inc_pc_spec g with h | h
      · left; rw [h]
      · rw [h]
        dsimp only
        rcases ih e1 he1 ⟨g.pc + 1, g.insts ++ [Instruction.Split (g.pc + 1) 0]⟩
            (by simp [hg]) with h2 | h2
        · left; rw [h2]
        · rw [h2]
          dsimp only
          rcases inc_pc_spec ⟨g.pc + 1 + (frag e1 (g.pc + 1)).length,
              ((g.insts ++ [Instruction.Split (g.pc + 1) 0]) ++ frag e1 (g.pc + 1)) ++
                [Instruction.Jump 0]⟩ with h3 | h3
          · left; rw [h3]
          · rw [h3]
            dsimp only
            have hshape1 : ((g.insts ++ [Instruction.Split (g.pc + 1) 0]) ++
                frag e1 (g.pc + 1)) ++ [Instruction.Jump 0] =
                g.insts ++ (Instruction.Split (g.pc + 1) 0 ::
                  (frag e1 (g.pc + 1) ++ [Instruction.Jump 0])) := by simp
            rw [hshape1]
            have hget1 : (g.insts ++ (Instruction.Split (g.pc + 1) 0 ::
                (frag e1 (g.pc + 1) ++ [Instruction.Jump 0])))[g.pc]? =
                some (Instruction.Split (g.pc + 1) 0) := by
              rw [hg]; exact getElem?_append_cons _ _ _
            rw [hget1]
            dsimp only
            have hset1 : (g.insts ++ (Instruction.Split (g.pc + 1) 0 ::
                (frag e1 (g.pc + 1) ++ [Instruction.Jump 0]))).set g.pc
                (Instruction.Split (g.pc + 1)
                  (g.pc + 1 + (frag e1 (g.pc + 1)).length + 1)) =
                g.insts ++ (Instruction.Split (g.pc + 1)
                  (g.pc + 1 + (frag e1 (g.pc + 1)).length + 1) ::
                  (frag e1 (g.pc + 1) ++ [Instruction.Jump 0])) := by
              rw [hg]; exact set_append_cons _ _ _ _
            rw [hset1]
            rcases ih e2 he2 ⟨g.pc + 1 + (frag e1 (g.pc + 1)).length + 1,
                g.insts ++ (Instruction.Split (g.pc + 1)
                  (g.pc + 1 + (frag e1 (g.pc + 1)).length + 1) ::
                  (frag e1 (g.pc + 1) ++ [Instruction.Jump 0]))⟩
                (by simp only [List.length_append, List.length_cons, List.length_nil]
                    omega) with h4 | h4
            · left; rw [h4]
            · rw [h4]
              dsimp only
              have hshape2 : (g.insts ++ (Instruction.Split (g.pc + 1)
                  (g.pc + 1 + (frag e1 (g.pc + 1)).length + 1) ::
                  (frag e1 (g.pc + 1) ++ [Instruction.Jump 0]))) ++
                    frag e2 (g.pc + 1 + (frag e1 (g.pc + 1)).length + 1) =
                  (g.insts ++ Instruction.Split (g.pc + 1)
                    (g.pc + 1 + (frag e1 (g.pc + 1)).length + 1) ::
                    frag e1 (g.pc + 1)) ++
                  (Instruction.Jump 0 ::
                    frag e2 (g.pc + 1 + (frag e1 (g.pc + 1)).length + 1)) := by simp
              rw [hshape2]
              have hlen2 : g.pc + 1 + (frag e1 (g.pc + 1)).length =
                  (g.insts ++ Instruction.Split (g.pc + 1)
                    (g.pc + 1 + (frag e1 (g.pc + 1)).length + 1) ::
                    frag e1 (g.pc + 1)).length := by
                simp only [List.length_append, List.length_cons]; omega
              have hget2 : ((g.insts ++ Instruction.Split (g.pc + 1)
                  (g.pc + 1 + (frag e1 (g.pc + 1)).length + 1) ::
                  frag e1 (g.pc + 1)) ++
                  (Instruction.Jump 0 ::
                    frag e2 (g.pc + 1 + (frag e1 (g.pc + 1)).length + 1)))[
                      g.pc + 1 + (frag e1 (g.pc + 1)).length]? =
                  some (Instruction.Jump 0) := by
                exact getElem?_append_cons_len _ _ _ _ hlen2
              rw [hget2]
              dsimp only
              have hset2 : ((g.insts ++ Instruction.Split (g.pc + 1)
                  (g.pc + 1 + (frag e1 (g.pc + 1)).length + 1) ::
                  frag e1 (g.pc + 1)) ++
                  (Instruction.Jump 0 ::
                    frag e2 (g.pc + 1 + (frag e1 (g.pc + 1)).length + 1))).set
                    (g.pc + 1 + (frag e1 (g.pc + 1)).length)
                    (Instruction.Jump (g.pc + 1 + (frag e1 (g.pc + 1)).length + 1 +
                      (frag e2 (g.pc + 1 + (frag e1 (g.pc + 1)).length + 1)).length)) =
                  (g.insts ++ Instruction.Split (g.pc + 1)
                    (g.pc + 1 + (frag e1 (g.pc + 1)).length + 1) ::
                    frag e1 (g.pc + 1)) ++
                  (Instruction.Jump (g.pc + 1 + (frag e1 (g.pc + 1)).length + 1 +
                    (frag e2 (g.pc + 1 + (frag e1 (g.pc + 1)).length + 1)).length) ::
                    frag e2 (g.pc + 1 + (frag e1 (g.pc + 1)).length + 1)) := by
                exact set_append_cons_len _ _ _ _ _ hlen2
              rw [hset2]
              right
              simp only [frag, Except.ok.injEq, Generator.mk.injEq, List.length_cons,
                List.length_append, List.length_nil]
              exact ⟨by omega, by simp⟩
    | Seq v =>
      have hmem : ∀ x ∈ v, sizeOf x ≤ N := by
        intro x hx
        have h1 := List.sizeOf_lt_of_mem hx
        simp_arith at he
        omega
      have hseq : ∀ (w : List AST), (∀ x ∈ w, sizeOf x ≤ N) → ∀ g2 : Generator,
          g2.pc = g2.insts.length →
          gen_seq g2 w = Except.error CodeGenError.PCOverflow ∨
          gen_seq g2 w =
            Except.ok ⟨g2.pc + (fragList w g2.pc).length, g2.insts ++ fragList w g2.pc⟩ := by
        intro w
        induction w with
        | nil =>
          intro _ g2 hg2
          right
          simp [gen_seq, fragList]
        | cons x xs ihx =>
          intro hmem2 g2 hg2
          simp only [gen_seq]
          rcases ih x (hmem2 x (List.mem_cons_self x xs)) g2 hg2 with h1 | h1
          · left; rw [h1]
          · rw [h1]
            dsimp only
            rcases ihx (fun y hy => hmem2 y (List.mem_cons_of_mem x hy))
                ⟨g2.pc + (frag x g2.pc).length, g2.insts ++ frag x g2.pc⟩
                (by simp [hg2]) with h2 | h2
            · left; exact h2
            · right
              rw [h2]
              dsimp only
              simp only [fragList, Except.ok.injEq, Generator.mk.injEq, List.length_append]
              exact ⟨by omega, by simp⟩
      simpa only [gen_expr, frag] using hseq v hmem g hg

/-- `get_code` either reports address-space overflow or returns exactly the
pure layout `frag ast 0` followed by a trailing `Match`. -/
theorem get_code_spec (ast : AST) :
    get_code ast = Except.error CodeGenError.PCOverflow ∨
    get_code ast = Except.ok (frag ast 0 ++ [Instruction.Match]) := by
  unfold get_code gen_code
  rcases gen_spec_size (sizeOf ast) ast le_rfl ⟨0, []⟩ rfl with h | h
  · left; rw [h]
  · rw [h]
    dsimp only
    rcases inc_pc_spec ⟨0 + (frag ast 0).length, [] ++ frag ast 0⟩ with h2 | h2
    · left; rw [h2]
    · rw [h2]
      right
      dsimp only
      simp

/-- Every Jump/Split target inside `frag e s` lies between `s` and
`s + (frag e s).length`. -/
theorem frag_targets : ∀ (N : Nat) (e : AST), sizeOf e ≤ N → ∀ (s : Nat),
    ∀ i ∈ frag e s, ∀ t ∈ instTargets i, s ≤ t ∧ t ≤ s + (frag e s).length := by
  intro N
  induction N with
  | zero =>
    intro e he
    exact absurd he (by have := ast_sizeOf_pos e; omega)
  | succ N ih =>
    intro e he s i hi t ht
    cases e with
    | Char c =>
      simp only [frag, List.mem_singleton] at hi
      subst hi
      simp [instTargets] at ht
    | Question e =>
      have he2 : sizeOf e ≤ N := by simp_arith at he; omega
      simp only [frag, List.mem_cons] at hi
      simp only [frag, List.length_cons]
      rcases hi with rfl | hi
      · simp only [instTargets, List.mem_cons, List.mem_singleton] at ht
        rcases ht with rfl | rfl | h
        · omega
        · omega
        · simp at h
      · have := ih e he2 (s + 1) i hi t ht
        omega
    | Star e =>
      have he2 : sizeOf e ≤ N := by simp_arith at he; omega
      simp only [frag, List.mem_cons, List.mem_append, List.mem_singleton] at hi
      simp only [frag, List.length_cons, List.length_append, List.length_cons,
        List.length_nil]
      rcases hi with rfl | hi | rfl | h
      · simp only [instTargets, List.mem_cons, List.mem_singleton] at ht
        rcases ht with rfl | rfl | h
        · omega
        · omega
        · simp at h
      · have := ih e he2 (s + 1) i hi t ht
        omega
      · simp only [instTargets, List.mem_singleton] at ht
        subst ht
        omega
      · simp at h
    | Plus e =>
      have he2 : sizeOf e ≤ N := by simp_arith at he; omega
      simp only [frag, List.mem_append, List.mem_singleton] at hi
      simp only [frag, List.length_append, List.length_cons, List.length_nil]
      rcases hi with hi | rfl
      · have := ih e he2 s i hi t ht
        omega
      · simp only [instTargets, List.mem_cons, List.mem_singleton] at ht
        rcases ht with rfl | rfl | h
        · omega
        · omega
        · simp at h
    | Or e1 e2 =>
      have he1 : sizeOf e1 ≤ N := by simp_arith at he; omega
      have he2 : sizeOf e2 ≤ N := by simp_arith at he; omega
      simp only [frag, List.mem_cons, List.mem_append] at hi
      simp only [frag, List.length_cons, List.length_append]
      rcases hi with rfl | hi | hi
      · simp only [instTargets, List.mem_cons, List.mem_singleton] at ht
        rcases ht with rfl | rfl | h
        · omega
        · omega
        · simp at h
      · have := ih e1 he1 (s + 1) i hi t ht
        omega
      · rcases hi with rfl | hi
        · simp only [instTargets, List.mem_singleton] at ht
          subst ht
          omega
        · have := ih e2 he2 (s + 1 + (frag e1 (s + 1)).length + 1) i hi t ht
          omega
    | Seq v =>
      have hmem : ∀ x ∈ v, sizeOf x ≤ N := by
        intro x hx
        have h1 := List.sizeOf_lt_of_mem hx
        simp_arith at he
        omega
      have hseq : ∀ (w : List AST), (∀ x ∈ w, sizeOf x ≤ N) → ∀ (s2 : Nat),
          ∀ i ∈ fragList w s2, ∀ t ∈ instTargets i,
            s2 ≤ t ∧ t ≤ s2 + (fragList w s2).length := by
        intro w
        induction w with
        | nil => intro _ s2 i hi; simp [fragList] at hi
        | cons x xs ihx =>
          intro hmem2 s2 i hi t ht
          simp only [fragList, List.mem_append] at hi
          simp only [fragList, List.length_append]
          rcases hi with hi | hi
          · have := ih x (hmem2 x (List.mem_cons_self x xs)) s2 i hi t ht
            omega
          · have := ihx (fun y hy => hmem2 y (List.mem_cons_of_mem x hy))
                (s2 + (frag x s2).length) i hi t ht
            omega
      simpa only [frag] using hseq v hmem s i hi t ht

/-- C5: code generation never fails with one of the internal backpatch errors
`FailOr`, `FailStar` or `FailQuestion`: every recursive emission path finds
the placeholder it recorded (the only possible error is address-space
overflow). -/
theorem c5_no_backpatch_failure (ast : AST) :
    get_code ast ≠ Except.error CodeGenError.FailOr ∧
    get_code ast ≠ Except.error CodeGenError.FailStar ∧
    get_code ast ≠ Except.error CodeGenError.FailQuestion := by
  rcases get_code_spec ast with h | h <;> rw [h] <;> exact ⟨by simp, by simp, by simp⟩

/-- C6: when code generation succeeds, every Jump target and both targets of
every Split are valid indices into the returned instruction sequence. -/
theorem c6_targets_valid (ast : AST) (code : List Instruction)
    (h : get_code ast = Except.ok code) :
    ∀ i ∈ code, ∀ t ∈ instTargets i, t < code.length := by
  rcases get_code_spec ast with h2 | h2
  · rw [h2] at h; exact absurd h (by simp)
  · rw [h2] at h
    obtain rfl : code = frag ast 0 ++ [Instruction.Match] := (Except.ok.inj h).symm
    intro i hi t ht
    rcases List.mem_append.mp hi with hi | hi
    · have := frag_targets (sizeOf ast) ast le_rfl 0 i hi t ht
      simp only [List.length_append, List.length_cons, List.length_nil]
      omega
    · rw [List.mem_singleton] at hi
      subst hi
      simp [instTargets] at ht

/-- Witness for C6 at the concrete AST of the pattern `a|b*`. -/
theorem c6_witness :
    get_code (AST.Or (AST.Char 'a') (AST.Star (AST.Char 'b'))) =
      Except.ok [Instruction.Split 1 3, Instruction.Char 'a', Instruction.Jump 6,
        Instruction.Split 4 6, Instruction.Char 'b', Instruction.Jump 3,
        Instruction.Match] ∧
    ∀ i ∈ [Instruction.Split 1 3, Instruction.Char 'a', Instruction.Jump 6,
        Instruction.Split 4 6, Instruction.Char 'b', Instruction.Jump 3,
        Instruction.Match], ∀ t ∈ instTargets i,
      t < [Instruction.Split 1 3, Instruction.Char 'a', Instruction.Jump 6,
        Instruction.Split 4 6, Instruction.Char 'b', Instruction.Jump 3,
        Instruction.Match].length :=
  ⟨rfl, c6_targets_valid (AST.Or (AST.Char 'a') (AST.Star (AST.Char 'b'))) _ rfl⟩


/-! ## Termination of `eval_depth` on compiled code without zero-width
repetition (claim C3) -/

/-- Inversion for `safe_add`. -/
theorem safe_add_some {a b x : Nat} (h : safe_add a b = some x) : x = a + b := by
  unfold safe_add at h
  by_cases hb : a + b ≤ USIZE_MAX
  · rw [if_pos hb] at h; exact (Option.some.inj h).symm
  · rw [if_neg hb] at h; exact absurd h (by simp)

/-- A non-nullable AST compiles to at least one instruction. -/
theorem nonnull_frag_len : ∀ (N : Nat) (e : AST), sizeOf e ≤ N →
    nullable e = false → ∀ s : Nat, 1 ≤ (frag e s).length := by
  intro N
  induction N with
  | zero =>
    intro e he
    exact absurd he (by have := ast_sizeOf_pos e; omega)
  | succ N ih =>
    intro e he hn s
    cases e with
    | Char c => simp [frag]
    | Question e => simp [nullable] at hn
    | Star e => simp [nullable] at hn
    | Plus e => simp [frag]
    | Or e1 e2 => simp [frag]
    | Seq v =>
      have hmem : ∀ x ∈ v, sizeOf x ≤ N := by
        intro x hx
        have h1 := List.sizeOf_lt_of_mem hx
        simp_arith at he
        omega
      simp only [nullable] at hn
      have hseq : ∀ (w : List AST), (∀ x ∈ w, sizeOf x ≤ N) →
          nullableList w = false → ∀ s2 : Nat, 1 ≤ (fragList w s2).length := by
        intro w
        induction w with
        | nil => intro _ hw; simp [nullableList] at hw
        | cons x xs ihx =>
          intro hmem2 hw s2
          simp only [nullableList, Bool.and_eq_false_iff] at hw
          simp only [fragList, List.length_append]
          rcases hw with hw | hw
          · have := ih x (hmem2 x (List.mem_cons_self x xs)) hw s2
            omega
          · have := ihx (fun y hy => hmem2 y (List.mem_cons_of_mem x hy)) hw
                (s2 + (frag x s2).length)
            omega
      simpa only [frag] using hseq v hmem hn s

/-- An AST that compiles to no instructions has entry rank equal to its exit
rank. -/
theorem zerolen_entry : ∀ (N : Nat) (e : AST), sizeOf e ≤ N → ∀ (s : Nat),
    (frag e s).length = 0 → ∀ R : Nat, entryRk e R = R := by
  intro N
  induction N with
  | zero =>
    intro e he
    exact absurd he (by have := ast_sizeOf_pos e; omega)
  | succ N ih =>
    intro e he s h0 R
    cases e with
    | Char c => simp [frag] at h0
    | Question e => simp [frag] at h0
    | Star e => simp [frag] at h0
    | Plus e => simp [frag] at h0
    | Or e1 e2 => simp [frag] at h0
    | Seq v =>
      have hmem : ∀ x ∈ v, sizeOf x ≤ N := by
        intro x hx
        have h1 := List.sizeOf_lt_of_mem hx
        simp_arith at he
        omega
      simp only [frag] at h0
      have hseq : ∀ (w : List AST), (∀ x ∈ w, sizeOf x ≤ N) → ∀ (s2 : Nat),
          (fragList w s2).length = 0 → ∀ R2 : Nat, entryRkList w R2 = R2 := by
        intro w
        induction w with
        | nil => intro _ _ _ R2; rfl
        | cons x xs ihx =>
          intro hmem2 s2 hw R2
          simp only [fragList, List.length_append] at hw
          simp only [entryRkList]
          rw [ihx (fun y hy => hmem2 y (List.mem_cons_of_mem x hy))
            (s2 + (frag x s2).length) (by omega)]
          exact ih x (hmem2 x (List.mem_cons_self x xs)) s2 (by omega) R2
      simpa only [entryRk] using hseq v hmem s h0 R

/-- The entry rank exceeds the exit rank by at most `rbound`. -/
theorem entry_bound : ∀ (N : Nat) (e : AST), sizeOf e ≤ N →
    ∀ R : Nat, entryRk e R ≤ R + rbound e := by
  intro N
  induction N with
  | zero =>
    intro e he
    exact absurd he (by have := ast_sizeOf_pos e; omega)
  | succ N ih =>
    intro e he R
    cases e with
    | Char c => simp [entryRk, rbound]
    | Question e =>
      have he2 : sizeOf e ≤ N := by simp_arith at he; omega
      have := ih e he2 R
      simp only [entryRk, rbound]
      omega
    | Star e =>
      have he2 : sizeOf e ≤ N := by simp_arith at he; omega
      have := ih e he2 0
      simp only [entryRk, rbound]
      omega
    | Plus e =>
      have he2 : sizeOf e ≤ N := by simp_arith at he; omega
      have := ih e he2 0
      simp only [entryRk, rbound]
      omega
    | Or e1 e2 =>
      have he1 : sizeOf e1 ≤ N := by simp_arith at he; omega
      have he2 : sizeOf e2 ≤ N := by simp_arith at he; omega
      have h1 := ih e1 he1 (R + 1)
      have h2 := ih e2 he2 R
      simp only [entryRk, rbound]
      by_cases hb : nullable e1 || nullable e2
      · rw [if_pos hb]; omega
      · rw [if_neg hb]; omega
    | Seq v =>
      have hmem : ∀ x ∈ v, sizeOf x ≤ N := by
        intro x hx
        have h1 := List.sizeOf_lt_of_mem hx
        simp_arith at he
        omega
      have hseq : ∀ (w : List AST), (∀ x ∈ w, sizeOf x ≤ N) → ∀ R2 : Nat,
          entryRkList w R2 ≤ R2 + rboundList w := by
        intro w
        induction w with
        | nil => intro _ R2; simp [entryRkList, rboundList]
        | cons x xs ihx =>
          intro hmem2 R2
          simp only [entryRkList, rboundList]
          have h1 := ihx (fun y hy => hmem2 y (List.mem_cons_of_mem x hy)) R2
          have h2 := ih x (hmem2 x (List.mem_cons_self x xs)) (entryRkList xs R2)
          omega
      simpa only [entryRk, rbound] using hseq v hmem R


/-- Entry-slot value and exit-rank independence of the rank assignment: for a
restricted AST, (1) the rank of the fragment's entry slot is `entryRk`, and
(2) if the AST is non-nullable its entry rank does not depend on the exit
rank. -/
theorem entry_val_indep : ∀ (N : Nat) (e : AST), sizeOf e ≤ N →
    (no_empty_rep e = true → ∀ s R : Nat, rkExt e s R s = entryRk e R) ∧
    (no_empty_rep e = true → nullable e = false →
      ∀ R R2 : Nat, entryRk e R = entryRk e R2) := by
  intro N
  induction N with
  | zero =>
    intro e he
    exact absurd he (by have := ast_sizeOf_pos e; omega)
  | succ N ih =>
    intro e he
    cases e with
    | Char c =>
      refine ⟨fun _ s R => ?_, fun _ _ R R2 => rfl⟩
      simp only [rkExt, frag, List.length_cons, List.length_nil]
      rw [if_neg (by omega)]
      rfl
    | Question e =>
      refine ⟨fun hr s R => ?_, fun _ hn => by simp [nullable] at hn⟩
      simp only [rkExt, frag, List.length_cons]
      rw [if_neg (by omega)]
      simp only [rankOf, if_pos]
      rfl
    | Star e =>
      refine ⟨fun hr s R => ?_, fun _ hn => by simp [nullable] at hn⟩
      simp only [rkExt, frag, List.length_cons]
      rw [if_neg (by omega)]
      simp only [rankOf, if_pos]
      rfl
    | Plus e =>
      have he2 : sizeOf e ≤ N := by simp_arith at he; omega
      have hsplit : no_empty_rep (AST.Plus e) = true →
          nullable e = false ∧ no_empty_rep e = true := by
        intro hr
        simpa [no_empty_rep, Bool.and_eq_true, Bool.not_eq_true'] using hr
      constructor
      · intro hr s R
        obtain ⟨hn, hre⟩ := hsplit hr
        have hlen := nonnull_frag_len (sizeOf e) e le_rfl hn s
        simp only [rkExt, frag, List.length_append, List.length_cons, List.length_nil]
        rw [if_neg (by omega)]
        simp only [rankOf]
        rw [if_neg (by omega)]
        have hrw : rkExt e s (max (entryRk e 0) R + 1) s =
            rankOf e s (max (entryRk e 0) R + 1) s := by
          simp only [rkExt]
          rw [if_neg (by omega)]
        rw [← hrw, (ih e he2).1 hre s (max (entryRk e 0) R + 1),
          (ih e he2).2 hre hn (max (entryRk e 0) R + 1) 0]
        rfl
      · intro _ _ R R2; rfl
    | Or e1 e2 =>
      have he1 : sizeOf e1 ≤ N := by simp_arith at he; omega
      have he2 : sizeOf e2 ≤ N := by simp_arith at he; omega
      have hsplit : no_empty_rep (AST.Or e1 e2) = true →
          no_empty_rep e1 = true ∧ no_empty_rep e2 = true := by
        intro hr
        simpa [no_empty_rep, Bool.and_eq_true] using hr
      constructor
      · intro hr s R
        simp only [rkExt, frag, List.length_cons]
        rw [if_neg (by omega)]
        simp only [rankOf, if_pos]
      · intro hr hn R R2
        obtain ⟨hr1, hr2⟩ := hsplit hr
        have hn12 : nullable e1 = false ∧ nullable e2 = false := by
          simpa [nullable, Bool.or_eq_false_iff] using hn
        simp only [entryRk, hn12.1, hn12.2]
        rw [(ih e1 he1).2 hr1 hn12.1 (R + 1) (R2 + 1), (ih e2 he2).2 hr2 hn12.2 R R2]
        simp
    | Seq v =>
      have hmem : ∀ x ∈ v, sizeOf x ≤ N := by
        intro x hx
        have h1 := List.sizeOf_lt_of_mem hx
        simp_arith at he
        omega
      constructor
      · intro hr s R
        have hseq : ∀ (w : List AST), (∀ x ∈ w, sizeOf x ≤ N) →
            noEmptyRepList w = true → ∀ (s2 R2 : Nat),
            rkExt (AST.Seq w) s2 R2 s2 = entryRkList w R2 := by
          intro w
          induction w with
          | nil =>
            intro _ _ s2 R2
            simp [rkExt, frag, fragList, entryRkList]
          | cons x xs ihx =>
            intro hmem2 hw s2 R2
            have hwx : no_empty_rep x = true ∧ noEmptyRepList xs = true := by
              simpa [noEmptyRepList, Bool.and_eq_true] using hw
            have hxN : sizeOf x ≤ N := hmem2 x (List.mem_cons_self x xs)
            have hxsN : ∀ y ∈ xs, sizeOf y ≤ N :=
              fun y hy => hmem2 y (List.mem_cons_of_mem x hy)
            simp only [rkExt, frag, fragList, List.length_append, entryRkList]
            by_cases h0 : (frag x s2).length +
                (fragList xs (s2 + (frag x s2).length)).length = 0
            · rw [if_pos (by omega)]
              have hz1 : (frag x s2).length = 0 := by omega
              have hz2 : (fragList xs (s2 + (frag x s2).length)).length = 0 := by omega
              have hzx := zerolen_entry (sizeOf x) x le_rfl s2 hz1
              have hzxs := zerolen_entry (sizeOf (AST.Seq xs)) (AST.Seq xs) le_rfl
                (s2 + (frag x s2).length) (by simpa [frag] using hz2) R2
              simp only [entryRk] at hzxs
              rw [hzxs, hzx]
            · rw [if_neg (by omega)]
              simp only [rankOf, rankOfList]
              by_cases hx0 : s2 < s2 + (frag x s2).length
              · rw [if_pos hx0]
                have hrw : rkExt x s2 (entryRkList xs R2) s2 =
                    rankOf x s2 (entryRkList xs R2) s2 := by
                  simp only [rkExt]
                  rw [if_neg (by omega)]
                rw [← hrw, (ih x hxN).1 hwx.1 s2 (entryRkList xs R2)]
              · rw [if_neg hx0]
                have hz1 : (frag x s2).length = 0 := by omega
                have hpceq : s2 + (frag x s2).length = s2 := by omega
                rw [hpceq]
                have hzx := zerolen_entry (sizeOf x) x le_rfl s2 hz1 (entryRkList xs R2)
                rw [hzx]
                have hrest := ihx hxsN hwx.2 s2 R2
                unfold rkExt at hrest
                rw [if_neg (by
                  simp only [frag]
                  rw [hpceq] at h0
                  omega)] at hrest
                simpa only [rankOf] using hrest
        have hr2 : noEmptyRepList v = true := by simpa [no_empty_rep] using hr
        simpa only [entryRk] using hseq v hmem hr2 s R
      · intro hr hn R R2
        have hr2 : noEmptyRepList v = true := by simpa [no_empty_rep] using hr
        have hn2 : nullableList v = false := by simpa [nullable] using hn
        have hseq : ∀ (w : List AST), (∀ x ∈ w, sizeOf x ≤ N) →
            noEmptyRepList w = true → nullableList w = false →
            ∀ R R2 : Nat, entryRkList w R = entryRkList w R2 := by
          intro w
          induction w with
          | nil => intro _ _ hw; simp [nullableList] at hw
          | cons x xs ihx =>
            intro hmem2 hw hnw R R2
            have hwx : no_empty_rep x = true ∧ noEmptyRepList xs = true := by
              simpa [noEmptyRepList, Bool.and_eq_true] using hw
            simp only [nullableList, Bool.and_eq_false_iff] at hnw
            simp only [entryRkList]
            rcases hnw with hnx | hnxs
            · exact (ih x (hmem2 x (List.mem_cons_self x xs))).2 hwx.1 hnx _ _
            · rw [ihx (fun y hy => hmem2 y (List.mem_cons_of_mem x hy)) hwx.2 hnxs R R2]
        simpa only [entryRk] using hseq v hmem hr2 hn2 R R2


/-- Every rank value of a fragment exceeds its exit rank by at most
`rbound`. -/
theorem rank_bound : ∀ (N : Nat) (e : AST), sizeOf e ≤ N →
    ∀ s R pc : Nat, rankOf e s R pc ≤ R + rbound e := by
  intro N
  induction N with
  | zero =>
    intro e he
    exact absurd he (by have := ast_sizeOf_pos e; omega)
  | succ N ih =>
    intro e he s R pc
    cases e with
    | Char c => simp [rankOf, rbound]
    | Question e =>
      have he2 : sizeOf e ≤ N := by simp_arith at he; omega
      have hb := entry_bound (sizeOf e) e le_rfl R
      have hr := ih e he2 (s + 1) R pc
      simp only [rankOf, rbound]
      by_cases hp : pc = s
      · rw [if_pos hp]; omega
      · rw [if_neg hp]; omega
    | Star e =>
      have he2 : sizeOf e ≤ N := by simp_arith at he; omega
      have hb := entry_bound (sizeOf e) e le_rfl 0
      have hr := ih e he2 (s + 1) (max (entryRk e 0) R + 1 + 1) pc
      simp only [rankOf, rbound]
      by_cases hp : pc = s
      · rw [if_pos hp]; omega
      · rw [if_neg hp]
        by_cases hp2 : pc = s + 1 + (frag e (s + 1)).length
        · rw [if_pos hp2]; omega
        · rw [if_neg hp2]; omega
    | Plus e =>
      have he2 : sizeOf e ≤ N := by simp_arith at he; omega
      have hb := entry_bound (sizeOf e) e le_rfl 0
      have hr := ih e he2 s (max (entryRk e 0) R + 1) pc
      simp only [rankOf, rbound]
      by_cases hp : pc = s + (frag e s).length
      · rw [if_pos hp]; omega
      · rw [if_neg hp]; omega
    | Or e1 e2 =>
      have he1 : sizeOf e1 ≤ N := by simp_arith at he; omega
      have he2 : sizeOf e2 ≤ N := by simp_arith at he; omega
      have hb := entry_bound (sizeOf (AST.Or e1 e2)) (AST.Or e1 e2) le_rfl R
      have hr1 := ih e1 he1 (s + 1) (R + 1) pc
      have hr2 := ih e2 he2 (s + 1 + (frag e1 (s + 1)).length + 1) R pc
      simp only [rbound] at hb ⊢
      simp only [rankOf]
      by_cases hp : pc = s
      · rw [if_pos hp]; omega
      · rw [if_neg hp]
        by_cases hp2 : pc = s + 1 + (frag e1 (s + 1)).length
        · rw [if_pos hp2]; omega
        · rw [if_neg hp2]
          by_cases hp3 : pc < s + 1 + (frag e1 (s + 1)).length
          · rw [if_pos hp3]; omega
          · rw [if_neg hp3]; omega
    | Seq v =>
      have hmem : ∀ x ∈ v, sizeOf x ≤ N := by
        intro x hx
        have h1 := List.sizeOf_lt_of_mem hx
        simp_arith at he
        omega
      have hseq : ∀ (w : List AST), (∀ x ∈ w, sizeOf x ≤ N) → ∀ (s2 R2 pc2 : Nat),
          rankOfList w s2 R2 pc2 ≤ R2 + rboundList w := by
        intro w
        induction w with
        | nil => intro _ s2 R2 pc2; simp [rankOfList, rboundList]
        | cons x xs ihx =>
          intro hmem2 s2 R2 pc2
          have hbx := entry_bound (sizeOf (AST.Seq xs)) (AST.Seq xs) le_rfl R2
          simp only [entryRk, rbound] at hbx
          have hr1 := ih x (hmem2 x (List.mem_cons_self x xs)) s2 (entryRkList xs R2) pc2
          have hr2 := ihx (fun y hy => hmem2 y (List.mem_cons_of_mem x hy))
            (s2 + (frag x s2).length) R2 pc2
          simp only [rankOfList, rboundList]
          by_cases hp : pc2 < s2 + (frag x s2).length
          · rw [if_pos hp]; omega
          · rw [if_neg hp]; omega
      simpa only [rankOf, rbound] using hseq v hmem s R pc

/-- `rkExt` never exceeds the exit rank by more than `rbound`. -/
theorem rkExt_bound (e : AST) (s R pc : Nat) : rkExt e s R pc ≤ R + rbound e := by
  unfold rkExt
  by_cases hp : s + (frag e s).length ≤ pc
  · rw [if_pos hp]; omega
  · rw [if_neg hp]; exact rank_bound (sizeOf e) e le_rfl s R pc


/-- Index inversion for `getElem?`. -/
theorem getElem?_some_lt {α : Type} {l : List α} {j : Nat} {x : α}
    (h : l[j]? = some x) : j < l.length := by
  by_contra hc
  rw [List.getElem?_eq_none (by omega)] at h
  exact absurd h (by simp)

/-- An AST that compiles to no instructions is nullable. -/
theorem zerolen_nullable (e : AST) (s : Nat) (h : (frag e s).length = 0) :
    nullable e = true := by
  by_cases hn : nullable e
  · exact hn
  · have := nonnull_frag_len (sizeOf e) e le_rfl (by simpa using hn) s
    omega


set_option maxHeartbeats 1600000 in
theorem rank_dec : ∀ (N : Nat) (e : AST), sizeOf e ≤ N → no_empty_rep e = true →
    ∀ (s R j : Nat) (i : Instruction), (frag e s)[j]? = some i →
    ∀ t ∈ instTargets i, rkExt e s R t < rkExt e s R (s + j) := by
  intro N
  induction N with
  | zero =>
    intro e he
    exact absurd he (by have := ast_sizeOf_pos e; omega)
  | succ N ih =>
    intro e he hr s R j i hj t ht
    cases e with
    | Char c =>
      have hjlen := getElem?_some_lt hj
      simp only [frag, List.length_cons, List.length_nil] at hjlen
      obtain rfl : j = 0 := by omega
      simp only [frag, List.getElem?_cons_zero] at hj
      obtain rfl : Instruction.Char c = i := Option.some.inj hj
      simp [instTargets] at ht
    | Question e =>
      have he2 : sizeOf e ≤ N := by simp_arith at he; omega
      have hre : no_empty_rep e = true := by simpa [no_empty_rep] using hr
      have htrans : ∀ p, p ≠ s →
          rkExt (AST.Question e) s R p = rkExt e (s + 1) R p := by
        intro p hp
        unfold rkExt
        simp only [frag, List.length_cons]
        by_cases h1 : s + ((frag e (s + 1)).length + 1) ≤ p
        · rw [if_pos h1, if_pos (by omega)]
        · rw [if_neg h1, if_neg (by omega)]
          simp only [rankOf]
          rw [if_neg hp]
      cases j with
      | zero =>
        simp only [frag, List.getElem?_cons_zero] at hj
        obtain rfl : Instruction.Split (s + 1) (s + 1 + (frag e (s + 1)).length) = i :=
          Option.some.inj hj
        have hsrc := (entry_val_indep (sizeOf (AST.Question e)) (AST.Question e)
          le_rfl).1 hr s R
        simp only [Nat.add_zero]
        rw [hsrc]
        simp only [entryRk]
        simp only [instTargets, List.mem_cons, List.mem_singleton] at ht
        rcases ht with rfl | rfl | hcontra
        · -- t = s + 1, entry of the body
          by_cases hL : (frag e (s + 1)).length = 0
          · have : rkExt (AST.Question e) s R (s + 1) = R := by
              unfold rkExt
              rw [if_pos (by simp only [frag, List.length_cons]; omega)]
            rw [this]; omega
          · rw [htrans (s + 1) (by omega)]
            have hrw : rkExt e (s + 1) R (s + 1) = entryRk e R :=
              (entry_val_indep (sizeOf e) e le_rfl).1 hre (s + 1) R
            rw [hrw]; omega
        · -- t = s + 1 + L, the exit slot
          have : rkExt (AST.Question e) s R (s + 1 + (frag e (s + 1)).length) = R := by
            unfold rkExt
            rw [if_pos (by simp only [frag, List.length_cons]; omega)]
          rw [this]; omega
        · simp at hcontra
      | succ j2 =>
        simp only [frag, List.getElem?_cons_succ] at hj
        have hsub := ih e he2 hre (s + 1) R j2 i hj t ht
        have htr : s + 1 ≤ t ∧ t ≤ s + 1 + (frag e (s + 1)).length :=
          frag_targets (sizeOf e) e le_rfl (s + 1) i (List.getElem?_mem hj) t ht
        have heq : s + (j2 + 1) = s + 1 + j2 := by omega
        rw [heq, htrans t (by omega), htrans (s + 1 + j2) (by omega)]
        exact hsub
    | Star e =>
      have he2 : sizeOf e ≤ N := by simp_arith at he; omega
      have hparts : nullable e = false ∧ no_empty_rep e = true := by
        simpa [no_empty_rep, Bool.and_eq_true, Bool.not_eq_true'] using hr
      obtain ⟨hn, hre⟩ := hparts
      have hL := nonnull_frag_len (sizeOf e) e le_rfl hn (s + 1)
      have hsrc0 : rkExt (AST.Star e) s R s = max (entryRk e 0) R + 1 := by
        unfold rkExt
        rw [if_neg (by
          simp only [frag, List.length_cons, List.length_append, List.length_nil]
          omega)]
        simp only [rankOf, if_pos]
      have hexit : rkExt (AST.Star e) s R (s + 1 + (frag e (s + 1)).length + 1) = R := by
        unfold rkExt
        rw [if_pos (by
          simp only [frag, List.length_cons, List.length_append, List.length_nil]
          omega)]
      have hjslot : rkExt (AST.Star e) s R (s + 1 + (frag e (s + 1)).length) =
          max (entryRk e 0) R + 1 + 1 := by
        unfold rkExt
        rw [if_neg (by
          simp only [frag, List.length_cons, List.length_append, List.length_nil]
          omega)]
        simp only [rankOf]
        rw [if_neg (by omega)]
        simp
      have htrans : ∀ p, p ≠ s → p ≤ s + 1 + (frag e (s + 1)).length →
          rkExt (AST.Star e) s R p =
            rkExt e (s + 1) (max (entryRk e 0) R + 1 + 1) p := by
        intro p hp hple
        by_cases hpj : p = s + 1 + (frag e (s + 1)).length
        · rw [hpj, hjslot]
          unfold rkExt
          rw [if_pos (by omega)]
        · unfold rkExt
          rw [if_neg (by
              simp only [frag, List.length_cons, List.length_append, List.length_nil]
              omega),
            if_neg (by omega)]
          simp only [rankOf]
          rw [if_neg hp, if_neg hpj]
      cases j with
      | zero =>
        simp only [frag, List.getElem?_cons_zero] at hj
        obtain rfl : Instruction.Split (s + 1) (s + 1 + (frag e (s + 1)).length + 1) = i :=
          Option.some.inj hj
        simp only [Nat.add_zero]
        rw [hsrc0]
        simp only [instTargets, List.mem_cons, List.mem_singleton] at ht
        rcases ht with rfl | rfl | hcontra
        · rw [htrans (s + 1) (by omega) (by omega)]
          rw [(entry_val_indep (sizeOf e) e le_rfl).1 hre (s + 1)
              (max (entryRk e 0) R + 1 + 1),
            (entry_val_indep (sizeOf e) e le_rfl).2 hre hn
              (max (entryRk e 0) R + 1 + 1) 0]
          omega
        · rw [hexit]; omega
        · simp at hcontra
      | succ j2 =>
        simp only [frag, List.getElem?_cons_succ] at hj
        by_cases hjL : j2 < (frag e (s + 1)).length
        · rw [List.getElem?_append, if_pos hjL] at hj
          have hsub := ih e he2 hre (s + 1) (max (entryRk e 0) R + 1 + 1) j2 i hj t ht
          have htr := frag_targets (sizeOf e) e le_rfl (s + 1) i
            (List.getElem?_mem hj) t ht
          have heq : s + (j2 + 1) = s + 1 + j2 := by omega
          rw [heq, htrans t (by omega) (by omega),
            htrans (s + 1 + j2) (by omega) (by omega)]
          exact hsub
        · have hjlen := getElem?_some_lt hj
          simp only [List.length_append, List.length_cons, List.length_nil] at hjlen
          obtain rfl : j2 = (frag e (s + 1)).length := by omega
          rw [getElem?_append_cons] at hj
          obtain rfl : Instruction.Jump s = i := Option.some.inj hj
          simp only [instTargets, List.mem_singleton] at ht
          have heq : s + ((frag e (s + 1)).length + 1) =
              s + 1 + (frag e (s + 1)).length := by omega
          rw [ht, heq, hjslot, hsrc0]
          omega
    | Plus e =>
      have he2 : sizeOf e ≤ N := by simp_arith at he; omega
      have hparts : nullable e = false ∧ no_empty_rep e = true := by
        simpa [no_empty_rep, Bool.and_eq_true, Bool.not_eq_true'] using hr
      obtain ⟨hn, hre⟩ := hparts
      have hL := nonnull_frag_len (sizeOf e) e le_rfl hn s
      have hexit : rkExt (AST.Plus e) s R (s + (frag e s).length + 1) = R := by
        unfold rkExt
        rw [if_pos (by
          simp only [frag, List.length_append, List.length_cons, List.length_nil]
          omega)]
      have hsplitslot : rkExt (AST.Plus e) s R (s + (frag e s).length) =
          max (entryRk e 0) R + 1 := by
        unfold rkExt
        rw [if_neg (by
          simp only [frag, List.length_append, List.length_cons, List.length_nil]
          omega)]
        simp only [rankOf, if_pos]
      have htrans : ∀ p, p ≤ s + (frag e s).length →
          rkExt (AST.Plus e) s R p = rkExt e s (max (entryRk e 0) R + 1) p := by
        intro p hple
        by_cases hpj : p = s + (frag e s).length
        · rw [hpj, hsplitslot]
          unfold rkExt
          rw [if_pos (by omega)]
        · unfold rkExt
          rw [if_neg (by
              simp only [frag, List.length_append, List.length_cons, List.length_nil]
              omega),
            if_neg (by omega)]
          simp only [rankOf]
          rw [if_neg hpj]
      simp only [frag] at hj
      by_cases hjL : j < (frag e s).length
      · rw [List.getElem?_append, if_pos hjL] at hj
        have hsub := ih e he2 hre s (max (entryRk e 0) R + 1) j i hj t ht
        have htr := frag_targets (sizeOf e) e le_rfl s i (List.getElem?_mem hj) t ht
        rw [htrans t (by omega), htrans (s + j) (by omega)]
        exact hsub
      · have hjlen := getElem?_some_lt hj
        simp only [List.length_append, List.length_cons, List.length_nil] at hjlen
        obtain rfl : j = (frag e s).length := by omega
        rw [getElem?_append_cons] at hj
        obtain rfl : Instruction.Split s (s + (frag e s).length + 1) = i :=
          Option.some.inj hj
        simp only [instTargets, List.mem_cons, List.mem_singleton] at ht
        rw [hsplitslot]
        rcases ht with ht | ht | hcontra
        · rw [ht, htrans s (by omega),
            (entry_val_indep (sizeOf e) e le_rfl).1 hre s (max (entryRk e 0) R + 1),
            (entry_val_indep (sizeOf e) e le_rfl).2 hre hn (max (entryRk e 0) R + 1) 0]
          omega
        · rw [ht, hexit]; omega
        · simp at hcontra
    | Or e1 e2 =>
      have he1 : sizeOf e1 ≤ N := by simp_arith at he; omega
      have he2 : sizeOf e2 ≤ N := by simp_arith at he; omega
      have hparts : no_empty_rep e1 = true ∧ no_empty_rep e2 = true := by
        simpa [no_empty_rep, Bool.and_eq_true] using hr
      obtain ⟨hr1, hr2⟩ := hparts
      have hsrc0 : rkExt (AST.Or e1 e2) s R s = entryRk (AST.Or e1 e2) R := by
        unfold rkExt
        rw [if_neg (by
          simp only [frag, List.length_cons]
          omega)]
        simp only [rankOf, if_pos]
      have hexit : rkExt (AST.Or e1 e2) s R
          (s + 1 + (frag e1 (s + 1)).length + 1 +
            (frag e2 (s + 1 + (frag e1 (s + 1)).length + 1)).length) = R := by
        unfold rkExt
        rw [if_pos (by
          simp only [frag, List.length_cons, List.length_append]
          omega)]
      have hjm : rkExt (AST.Or e1 e2) s R (s + 1 + (frag e1 (s + 1)).length) =
          R + 1 := by
        unfold rkExt
        rw [if_neg (by
          simp only [frag, List.length_cons, List.length_append]
          omega)]
        simp only [rankOf]
        rw [if_neg (by omega)]
        simp
      have htrans1 : ∀ p, p ≠ s → p ≤ s + 1 + (frag e1 (s + 1)).length →
          rkExt (AST.Or e1 e2) s R p = rkExt e1 (s + 1) (R + 1) p := by
        intro p hp hple
        by_cases hpj : p = s + 1 + (frag e1 (s + 1)).length
        · rw [hpj, hjm]
          unfold rkExt
          rw [if_pos (by omega)]
        · unfold rkExt
          rw [if_neg (by
              simp only [frag, List.length_cons, List.length_append]
              omega),
            if_neg (by omega)]
          simp only [rankOf]
          rw [if_neg hp, if_neg hpj, if_pos (by omega)]
      have htrans2 : ∀ p, s + 1 + (frag e1 (s + 1)).length + 1 ≤ p →
          rkExt (AST.Or e1 e2) s R p =
            rkExt e2 (s + 1 + (frag e1 (s + 1)).length + 1) R p := by
        intro p hple
        by_cases hpe : s + 1 + (frag e1 (s + 1)).length + 1 +
            (frag e2 (s + 1 + (frag e1 (s + 1)).length + 1)).length ≤ p
        · unfold rkExt
          rw [if_pos (by
              simp only [frag, List.length_cons, List.length_append]
              omega),
            if_pos (by omega)]
        · unfold rkExt
          rw [if_neg (by
              simp only [frag, List.length_cons, List.length_append]
              omega),
            if_neg (by omega)]
          simp only [rankOf]
          rw [if_neg (by omega), if_neg (by omega), if_neg (by omega)]
      simp only [frag] at hj
      cases j with
      | zero =>
        rw [List.getElem?_cons_zero] at hj
        obtain rfl : Instruction.Split (s + 1)
            (s + 1 + (frag e1 (s + 1)).length + 1) = i := Option.some.inj hj
        simp only [Nat.add_zero]
        rw [hsrc0]
        simp only [instTargets, List.mem_cons, List.mem_singleton] at ht
        rcases ht with ht | ht | hcontra
        · by_cases hL1 : (frag e1 (s + 1)).length = 0
          · have hidx : s + 1 + (frag e1 (s + 1)).length = s + 1 := by omega
            rw [hidx] at hjm
            rw [ht, hjm]
            have hn1 := zerolen_nullable e1 (s + 1) hL1
            have hz := zerolen_entry (sizeOf e1) e1 le_rfl (s + 1) hL1 (R + 1)
            simp only [entryRk, hn1, Bool.true_or, if_true]
            omega
          · rw [ht, htrans1 (s + 1) (by omega) (by omega),
              (entry_val_indep (sizeOf e1) e1 le_rfl).1 hr1 (s + 1) (R + 1)]
            simp only [entryRk]
            by_cases hnul : nullable e1 || nullable e2
            · rw [if_pos hnul]; omega
            · rw [if_neg hnul]; omega
        · by_cases hL2 : (frag e2 (s + 1 + (frag e1 (s + 1)).length + 1)).length = 0
          · have hidx : s + 1 + (frag e1 (s + 1)).length + 1 +
                (frag e2 (s + 1 + (frag e1 (s + 1)).length + 1)).length =
                s + 1 + (frag e1 (s + 1)).length + 1 := by omega
            rw [hidx] at hexit
            rw [ht, hexit]
            have hn2 := zerolen_nullable e2 (s + 1 + (frag e1 (s + 1)).length + 1) hL2
            simp only [entryRk, hn2, Bool.or_true, if_true]
            omega
          · rw [ht, htrans2 (s + 1 + (frag e1 (s + 1)).length + 1) (by omega),
              (entry_val_indep (sizeOf e2) e2 le_rfl).1 hr2
                (s + 1 + (frag e1 (s + 1)).length + 1) R]
            simp only [entryRk]
            by_cases hnul : nullable e1 || nullable e2
            · rw [if_pos hnul]; omega
            · rw [if_neg hnul]; omega
        · simp at hcontra
      | succ j2 =>
        rw [List.getElem?_cons_succ] at hj
        by_cases hjL1 : j2 < (frag e1 (s + 1)).length
        · rw [List.getElem?_append, if_pos hjL1] at hj
          have hsub := ih e1 he1 hr1 (s + 1) (R + 1) j2 i hj t ht
          have htr := frag_targets (sizeOf e1) e1 le_rfl (s + 1) i
            (List.getElem?_mem hj) t ht
          rw [show s + (j2 + 1) = s + 1 + j2 from by omega,
            htrans1 t (by omega) (by omega),
            htrans1 (s + 1 + j2) (by omega) (by omega)]
          exact hsub
        · rw [List.getElem?_append_right (by omega)] at hj
          cases hd : j2 - (frag e1 (s + 1)).length with
          | zero =>
            rw [hd, List.getElem?_cons_zero] at hj
            obtain rfl : Instruction.Jump (s + 1 + (frag e1 (s + 1)).length + 1 +
                (frag e2 (s + 1 + (frag e1 (s + 1)).length + 1)).length) = i :=
              Option.some.inj hj
            simp only [instTargets, List.mem_singleton] at ht
            have hj2 : j2 = (frag e1 (s + 1)).length := by omega
            rw [ht, hexit, show s + (j2 + 1) = s + 1 + (frag e1 (s + 1)).length
              from by omega, hjm]
            omega
          | succ j3 =>
            rw [hd, List.getElem?_cons_succ] at hj
            have hsub := ih e2 he2 hr2 (s + 1 + (frag e1 (s + 1)).length + 1) R j3
              i hj t ht
            have htr := frag_targets (sizeOf e2) e2 le_rfl
              (s + 1 + (frag e1 (s + 1)).length + 1) i (List.getElem?_mem hj) t ht
            rw [show s + (j2 + 1) = s + 1 + (frag e1 (s + 1)).length + 1 + j3
              from by omega,
              htrans2 t (by omega),
              htrans2 (s + 1 + (frag e1 (s + 1)).length + 1 + j3) (by omega)]
            exact hsub
    | Seq v =>
      have hmem : ∀ x ∈ v, sizeOf x ≤ N := by
        intro x hx
        have h1 := List.sizeOf_lt_of_mem hx
        simp_arith at he
        omega
      have hrl : noEmptyRepList v = true := by simpa [no_empty_rep] using hr
      have hseq : ∀ (w : List AST), (∀ x ∈ w, sizeOf x ≤ N) →
          noEmptyRepList w = true →
          ∀ (s2 R2 j2 : Nat) (i2 : Instruction), (fragList w s2)[j2]? = some i2 →
          ∀ t2 ∈ instTargets i2,
            rkExt (AST.Seq w) s2 R2 t2 < rkExt (AST.Seq w) s2 R2 (s2 + j2) := by
        intro w
        induction w with
        | nil => intro _ _ s2 R2 j2 i2 hj2; simp [fragList] at hj2
        | cons x xs ihx =>
          intro hmem2 hw s2 R2 j2 i2 hj2 t2 ht2
          have hwx : no_empty_rep x = true ∧ noEmptyRepList xs = true := by
            simpa [noEmptyRepList, Bool.and_eq_true] using hw
          have hxN : sizeOf x ≤ N := hmem2 x (List.mem_cons_self x xs)
          have hxsN : ∀ y ∈ xs, sizeOf y ≤ N :=
            fun y hy => hmem2 y (List.mem_cons_of_mem x hy)
          have htrans1 : ∀ p, p ≤ s2 + (frag x s2).length →
              rkExt (AST.Seq (x :: xs)) s2 R2 p =
                rkExt x s2 (entryRkList xs R2) p := by
            intro p hple
            by_cases hpj : p = s2 + (frag x s2).length
            · subst hpj
              have hrhs : rkExt x s2 (entryRkList xs R2) (s2 + (frag x s2).length) =
                  entryRkList xs R2 := by
                unfold rkExt
                rw [if_pos (by omega)]
              rw [hrhs]
              by_cases hz : (fragList xs (s2 + (frag x s2).length)).length = 0
              · unfold rkExt
                rw [if_pos (by
                  simp only [frag, fragList, List.length_append]
                  omega)]
                have hzx := zerolen_entry (sizeOf (AST.Seq xs)) (AST.Seq xs) le_rfl
                  (s2 + (frag x s2).length) (by simpa [frag] using hz) R2
                simp only [entryRk] at hzx
                rw [hzx]
              · unfold rkExt
                rw [if_neg (by
                  simp only [frag, fragList, List.length_append]
                  omega)]
                simp only [rankOf, rankOfList]
                rw [if_neg (by omega)]
                have hv := (entry_val_indep (sizeOf (AST.Seq xs)) (AST.Seq xs)
                  le_rfl).1 (by simpa [no_empty_rep] using hwx.2)
                  (s2 + (frag x s2).length) R2
                simp only [entryRk] at hv
                unfold rkExt at hv
                rw [if_neg (by simp only [frag]; omega)] at hv
                simpa only [rankOf] using hv
            · unfold rkExt
              rw [if_neg (by
                  simp only [frag, fragList, List.length_append]
                  omega),
                if_neg (by omega)]
              simp only [rankOf, rankOfList]
              rw [if_pos (by omega)]
          have htrans2 : ∀ p, s2 + (frag x s2).length ≤ p →
              rkExt (AST.Seq (x :: xs)) s2 R2 p =
                rkExt (AST.Seq xs) (s2 + (frag x s2).length) R2 p := by
            intro p hple
            by_cases hpe : s2 + (frag x s2).length +
                (fragList xs (s2 + (frag x s2).length)).length ≤ p
            · unfold rkExt
              rw [if_pos (by
                  simp only [frag, fragList, List.length_append]
                  omega),
                if_pos (by simp only [frag]; omega)]
            · unfold rkExt
              rw [if_neg (by
                  simp only [frag, fragList, List.length_append]
                  omega),
                if_neg (by simp only [frag]; omega)]
              simp only [rankOf, rankOfList]
              rw [if_neg (by omega)]
          simp only [fragList] at hj2
          by_cases hjx : j2 < (frag x s2).length
          · rw [List.getElem?_append, if_pos hjx] at hj2
            have hsub := ih x hxN hwx.1 s2 (entryRkList xs R2) j2 i2 hj2 t2 ht2
            have htr := frag_targets (sizeOf x) x le_rfl s2 i2
              (List.getElem?_mem hj2) t2 ht2
            rw [htrans1 t2 (by omega), htrans1 (s2 + j2) (by omega)]
            exact hsub
          · rw [List.getElem?_append_right (by omega)] at hj2
            have hsub := ihx hxsN hwx.2 (s2 + (frag x s2).length) R2
              (j2 - (frag x s2).length) i2 hj2 t2 ht2
            have htr := frag_targets (sizeOf (AST.Seq xs)) (AST.Seq xs) le_rfl
              (s2 + (frag x s2).length) i2
              (by simpa [frag] using List.getElem?_mem hj2) t2 ht2
            simp only [frag] at htr
            rw [htrans2 t2 (by omega),
              show s2 + j2 = s2 + (frag x s2).length + (j2 - (frag x s2).length)
                from by omega,
              htrans2 (s2 + (frag x s2).length + (j2 - (frag x s2).length))
                (by omega)]
            exact hsub
      have hj2 : (fragList v s)[j]? = some i := by simpa [frag] using hj
      exact hseq v hmem hrl s R j i hj2 t ht


/-- Fuel adequacy: a measure that strictly decreases along every execution
step bounds the fuel needed for `eval_depth` to produce a result. -/
theorem eval_depth_adequate (inst : List Instruction) (line : List Char)
    (mu : Nat → Nat → Nat)
    (hchar : ∀ pc sp c, inst[pc]? = some (Instruction.Char c) →
      getElem? line sp = some c → mu (pc + 1) (sp + 1) < mu pc sp)
    (hjump : ∀ pc sp a, inst[pc]? = some (Instruction.Jump a) → mu a sp < mu pc sp)
    (hsplit : ∀ pc sp a1 a2, inst[pc]? = some (Instruction.Split a1 a2) →
      mu a1 sp < mu pc sp ∧ mu a2 sp < mu pc sp) :
    ∀ (fuel pc sp : Nat), mu pc sp < fuel →
      eval_depth inst line fuel pc sp ≠ none := by
  intro fuel
  induction fuel with
  | zero => intro pc sp h; omega
  | succ n ihf =>
    intro pc sp hmu
    simp only [eval_depth]
    cases hinst : inst[pc]? with
    | none => simp
    | some i =>
      cases i with
      | Char c =>
        dsimp only
        cases hline : getElem? line sp with
        | none => simp
        | some d =>
          dsimp only
          by_cases hc : c = d
          · rw [if_pos hc]
            cases hpc : safe_add pc 1 with
            | none => simp
            | some pc2 =>
              dsimp only
              cases hsp : safe_add sp 1 with
              | none => simp
              | some sp2 =>
                obtain rfl : pc2 = pc + 1 := safe_add_some hpc
                obtain rfl : sp2 = sp + 1 := safe_add_some hsp
                have hline2 : getElem? line sp = some c := by rw [hc]; exact hline
                have := hchar pc sp c hinst hline2
                exact ihf (pc + 1) (sp + 1) (by omega)
          · rw [if_neg hc]; simp
      | Match => simp
      | Jump a =>
        have := hjump pc sp a hinst
        exact ihf a sp (by omega)
      | Split a1 a2 =>
        have hs := hsplit pc sp a1 a2 hinst
        have h1 := ihf a1 sp (by omega)
        have h2 := ihf a2 sp (by omega)
        dsimp only
        cases hv1 : eval_depth inst line n a1 sp with
        | none => exact absurd hv1 h1
        | some u =>
          cases u with
          | error e => simp
          | ok b =>
            cases b with
            | true => simp
            | false =>
              dsimp only
              cases hv2 : eval_depth inst line n a2 sp with
              | none => exact absurd hv2 h2
              | some u2 => cases u2 <;> simp

/-- On the code compiled from an AST without zero-width repeated
sub-expressions, `eval_depth` terminates from the initial state on every
input: enough fuel produces a result. -/
theorem eval_depth_terminates (ast : AST) (line : List Char)
    (hr : no_empty_rep ast = true) :
    ∃ (fuel : Nat) (r : Except EvalError Bool),
      eval_depth (frag ast 0 ++ [Instruction.Match]) line fuel 0 0 = some r := by
  set prog := frag ast 0 ++ [Instruction.Match] with hprog
  set K := rbound ast + 1 with hK
  set mu := fun (pc sp : Nat) => (line.length - sp) * K + rkExt ast 0 0 pc with hmu
  have hfraginst : ∀ (pc : Nat) (i : Instruction), i ≠ Instruction.Match →
      prog[pc]? = some i → (frag ast 0)[pc]? = some i := by
    intro pc i hne hpc
    by_cases hlt : pc < (frag ast 0).length
    · rw [hprog, List.getElem?_append, if_pos hlt] at hpc
      exact hpc
    · rw [hprog, List.getElem?_append_right (by omega)] at hpc
      cases hd : pc - (frag ast 0).length with
      | zero =>
        rw [hd, List.getElem?_cons_zero] at hpc
        exact absurd (Option.some.inj hpc) (fun h => hne h.symm)
      | succ m =>
        rw [hd, List.getElem?_cons_succ] at hpc
        simp at hpc
  have hdec : ∀ (pc : Nat) (i : Instruction), i ≠ Instruction.Match →
      prog[pc]? = some i → ∀ t ∈ instTargets i,
        rkExt ast 0 0 t < rkExt ast 0 0 pc := by
    intro pc i hne hpc t ht
    have hf := hfraginst pc i hne hpc
    have := rank_dec (sizeOf ast) ast le_rfl hr 0 0 pc i hf t ht
    simpa using this
  have hmono : ∀ (pc2 pc sp : Nat), rkExt ast 0 0 pc2 < rkExt ast 0 0 pc →
      mu pc2 sp < mu pc sp := by
    intro pc2 pc sp h
    simp only [hmu]
    omega
  have hadq := eval_depth_adequate prog line mu
    (by
      intro pc sp c hpc hline
      have hsp := getElem?_some_lt hline
      have hb := rkExt_bound ast 0 0 (pc + 1)
      simp only [hmu]
      have hds : line.length - sp = (line.length - (sp + 1)) + 1 := by omega
      rw [hds, Nat.succ_mul]
      have hKb : rkExt ast 0 0 (pc + 1) < K := by omega
      omega)
    (by
      intro pc sp a hpc
      have := hdec pc (Instruction.Jump a) (by simp) hpc a (by simp [instTargets])
      exact hmono a pc sp this)
    (by
      intro pc sp a1 a2 hpc
      have h1 := hdec pc (Instruction.Split a1 a2) (by simp) hpc a1
        (by simp [instTargets])
      have h2 := hdec pc (Instruction.Split a1 a2) (by simp) hpc a2
        (by simp [instTargets])
      exact ⟨hmono a1 pc sp h1, hmono a2 pc sp h2⟩)
  have hne := hadq (mu 0 0 + 1) 0 0 (by omega)
  cases heval : eval_depth prog line (mu 0 0 + 1) 0 0 with
  | none => exact absurd heval hne
  | some r => exact ⟨mu 0 0 + 1, r, heval⟩


/-- C3 (counterexample): the grammar does admit empty-repeatable
sub-expressions, and compiled code need not terminate.  The parser accepts
`"a?*"` — a `Star` whose body `a?` is zero-width — and `eval_depth` never
returns on its compiled program with empty input, at any fuel; moreover
`eval_width` never returns on the compiled form of the repetition-free
pattern `"a"` with empty input (see C1). -/
theorem c3_counterexample :
    (parse "a?*" = Except.ok (AST.Seq [AST.Star (AST.Question (AST.Char 'a'))]) ∧
     get_code (AST.Seq [AST.Star (AST.Question (AST.Char 'a'))]) =
       Except.ok [Instruction.Split 1 4, Instruction.Split 2 3, Instruction.Char 'a',
         Instruction.Jump 0, Instruction.Match] ∧
     ∀ fuel : Nat,
       eval_depth [Instruction.Split 1 4, Instruction.Split 2 3, Instruction.Char 'a',
         Instruction.Jump 0, Instruction.Match] [] fuel 0 0 = none) ∧
    (parse "a" = Except.ok (AST.Seq [AST.Char 'a']) ∧
     get_code (AST.Seq [AST.Char 'a']) =
       Except.ok [Instruction.Char 'a', Instruction.Match] ∧
     ∀ fuel : Nat,
       eval_width [Instruction.Char 'a', Instruction.Match] [] fuel 0 0 [] = none) := by
  refine ⟨⟨rfl, rfl, ?_⟩, rfl, rfl, eval_width_char_empty_stuck⟩
  have key : ∀ n : Nat,
      eval_depth [Instruction.Split 1 4, Instruction.Split 2 3, Instruction.Char 'a',
        Instruction.Jump 0, Instruction.Match] [] n 0 0 = none ∧
      eval_depth [Instruction.Split 1 4, Instruction.Split 2 3, Instruction.Char 'a',
        Instruction.Jump 0, Instruction.Match] [] n 1 0 = none ∧
      eval_depth [Instruction.Split 1 4, Instruction.Split 2 3, Instruction.Char 'a',
        Instruction.Jump 0, Instruction.Match] [] n 3 0 = none := by
    intro n
    induction n with
    | zero => exact ⟨rfl, rfl, rfl⟩
    | succ n ih =>
      obtain ⟨ih0, ih1, ih3⟩ := ih
      refine ⟨?_, ?_, ?_⟩
      · rw [show eval_depth [Instruction.Split 1 4, Instruction.Split 2 3,
            Instruction.Char 'a', Instruction.Jump 0, Instruction.Match] [] (n + 1) 0 0 =
            (match eval_depth [Instruction.Split 1 4, Instruction.Split 2 3,
                Instruction.Char 'a', Instruction.Jump 0, Instruction.Match] [] n 1 0 with
              | none => none
              | some (Except.error e) => some (Except.error e)
              | some (Except.ok true) => some (Except.ok true)
              | some (Except.ok false) =>
                  match eval_depth [Instruction.Split 1 4, Instruction.Split 2 3,
                      Instruction.Char 'a', Instruction.Jump 0, Instruction.Match] []
                      n 4 0 with
                  | none => none
                  | some (Except.error e) => some (Except.error e)
                  | some (Except.ok r) => some (Except.ok r)) from rfl, ih1]
      · cases n with
        | zero => rfl
        | succ m =>
          rw [show eval_depth [Instruction.Split 1 4, Instruction.Split 2 3,
              Instruction.Char 'a', Instruction.Jump 0, Instruction.Match] []
              (m + 1 + 1) 1 0 =
              (match eval_depth [Instruction.Split 1 4, Instruction.Split 2 3,
                  Instruction.Char 'a', Instruction.Jump 0, Instruction.Match] []
                  (m + 1) 3 0 with
                | none => none
                | some (Except.error e) => some (Except.error e)
                | some (Except.ok r) => some (Except.ok r)) from rfl, ih3]
      · exact ih0
  exact fun fuel => (key fuel).1

/-- C3 (amended): for every pattern accepted by the parser that contains no
zero-width repeated sub-expression (no `Star`/`Plus` with a nullable body),
depth-first evaluation of the compiled program terminates on every input —
enough fuel always produces a result. -/
theorem c3_amended_termination (p : String) (ast : AST) (code : List Instruction)
    (line : List Char) (hp : parse p = Except.ok ast)
    (hr : no_empty_rep ast = true) (hc : get_code ast = Except.ok code) :
    ∃ (fuel : Nat) (r : Except EvalError Bool),
      eval_depth code line fuel 0 0 = some r := by
  rcases get_code_spec ast with h | h
  · rw [h] at hc; exact absurd hc (by simp)
  · rw [h] at hc
    obtain rfl : code = frag ast 0 ++ [Instruction.Match] := (Except.ok.inj hc).symm
    exact eval_depth_terminates ast line hr

/-- Witness for C3 (amended) at the pattern `"ab"` and input `"a"`. -/
theorem c3_amended_witness :
    parse "ab" = Except.ok (AST.Seq [AST.Char 'a', AST.Char 'b']) ∧
    no_empty_rep (AST.Seq [AST.Char 'a', AST.Char 'b']) = true ∧
    get_code (AST.Seq [AST.Char 'a', AST.Char 'b']) =
      Except.ok [Instruction.Char 'a', Instruction.Char 'b', Instruction.Match] ∧
    ∃ (fuel : Nat) (r : Except EvalError Bool),
      eval_depth [Instruction.Char 'a', Instruction.Char 'b', Instruction.Match]
        ['a'] fuel 0 0 = some r :=
  ⟨rfl, rfl, rfl,
    c3_amended_termination "ab" (AST.Seq [AST.Char 'a', AST.Char 'b'])
      [Instruction.Char 'a', Instruction.Char 'b', Instruction.Match] ['a']
      rfl rfl rfl⟩

end RegexEngine
